import Mathlib

/-!
# Verification of the store-identity reconciliation engine

Shallow embedding of the matching core of `supabase/functions/database-query/index.ts`
(address normalizer, fuzzy string scorer, candidate field extractor, match ranker)
and of the numeric-field sanitization in `src/lib/api.ts`.

Strings are modelled as Lean `String`s / `List Char`; the relevant JavaScript string
primitives (`toLowerCase`, `trim`, `includes`, `split`, regex replacement) are embedded
as executable functions over `List Char`, restricted to their ASCII behaviour (all
string constants in the source are ASCII).  JavaScript numbers are modelled as exact
rationals `ℚ`; every arithmetic fact proved here therefore holds "up to floating-point
rounding" in the terminology of the specification.
-/

/-- ASCII model of the character class matched by JavaScript `\s`
(space, tab, line feed, carriage return, vertical tab, form feed). -/
def isJsWs (c : Char) : Bool :=
  c == ' ' || c == '\t' || c == '\n' || c == '\r' || c == '\x0b' || c == '\x0c'

/-- ASCII model of `String.prototype.toLowerCase` on a single character. -/
def toLowerCh (c : Char) : Char :=
  if 'A' ≤ c ∧ c ≤ 'Z' then Char.ofNat (c.toNat + 32) else c

/-- `String.prototype.toLowerCase`, characterwise. -/
def lowerL (l : List Char) : List Char := l.map toLowerCh

/-- `String.prototype.trim`: drop whitespace from both ends. -/
def trimL (l : List Char) : List Char :=
  ((l.dropWhile isJsWs).reverse.dropWhile isJsWs).reverse

/-- `.replace(/[.,#]/g, '')` : strip periods, commas and hash signs. -/
def stripPunct (l : List Char) : List Char :=
  l.filter (fun c => !(c == '.' || c == ',' || c == '#'))

/-- Worker for `collapseWs`: the flag records whether the previous emitted
character position was inside a whitespace run. -/
def collapseAux : Bool → List Char → List Char
  | _, [] => []
  | prevWs, c :: cs =>
    if isJsWs c then
      if prevWs then collapseAux true cs else ' ' :: collapseAux true cs
    else
      c :: collapseAux false cs

/-- `.replace(/\s+/g, ' ')` : collapse every maximal whitespace run to one space. -/
def collapseWs (l : List Char) : List Char := collapseAux false l

/-- The character class of JavaScript `\w` : `[A-Za-z0-9_]`. -/
def isWordChar (c : Char) : Bool :=
  ('a' ≤ c && c ≤ 'z') || ('A' ≤ c && c ≤ 'Z') || ('0' ≤ c && c ≤ '9') || c == '_'

/-- Split a character list into its maximal runs of word / non-word characters.
A whole-word regex match `\bw\b` (for `w` consisting of word characters)
is exactly a maximal word run equal to `w`. -/
def splitRunsStep (c : Char) : List (List Char) → List (List Char)
  | [] => [[c]]
  | [] :: rs => [c] :: rs
  | (d :: r) :: rs =>
    if isWordChar c == isWordChar d then (c :: d :: r) :: rs
    else [c] :: (d :: r) :: rs

def splitRuns : List Char → List (List Char)
  | [] => []
  | c :: cs => splitRunsStep c (splitRuns cs)

/-- Substitute a whole run: the action of `\bw\b → r` on one maximal run. -/
def subRun (w r run : List Char) : List Char := if run = w then r else run

/-- `.replace(/\bw\b/g, r)` for a word-only pattern `w`: replace every maximal
word run equal to `w` by `r`. -/
def replaceWholeWord (w r : String) (l : List Char) : List Char :=
  ((splitRuns l).map (subRun w.data r.data)).flatten

/-- The abbreviation table of `normalizeAddress`, in source order. -/
def addrRules : List (String × String) :=
  [("avenue", "ave"), ("street", "st"), ("drive", "dr"), ("boulevard", "blvd"),
   ("road", "rd"), ("lane", "ln"), ("court", "ct"), ("north", "n"), ("south", "s"),
   ("east", "e"), ("west", "w"), ("northeast", "ne"), ("northwest", "nw"),
   ("southeast", "se"), ("southwest", "sw")]

/-- Apply the chain of whole-word abbreviation replacements. -/
def applyWordRules (rules : List (String × String)) (l : List Char) : List Char :=
  rules.foldl (fun s p => replaceWholeWord p.1 p.2 s) l

/-- `normalizeAddress` (index.ts:198-219): lowercase, trim, strip `.,#`,
collapse whitespace, abbreviate street/directional words. -/
def normalizeAddress (s : String) : String :=
  ⟨applyWordRules addrRules (collapseWs (stripPunct (trimL (lowerL s.data))))⟩


/-! ## Fuzzy string scorer (`fuzzyMatchScore`, index.ts:156-195) -/

/-- Textbook (classic) single-character insert/delete/substitute Levenshtein
edit distance, used as the reference specification for the DP loop below. -/
def levRec : List Char → List Char → Nat
  | [], t => t.length
  | s, [] => s.length
  | a :: s, b :: t =>
    if a = b then levRec s t
    else min (min (levRec s (b :: t)) (levRec (a :: s) t)) (levRec s t) + 1
termination_by s t => s.length + t.length

/-- Inner `j`-loop of the edit-distance computation in `fuzzyMatchScore`
(index.ts:179-190): one row of the one-row rolling Levenshtein DP.
`prev` is the suffix of the previous row starting at `j-1` (so its head is the
diagonal value `costs[j-1]`), and `left` is the current row's value at `j-1`
(the variable `lastValue`). -/
def rowAux (a : Char) : List Char → List Nat → Nat → List Nat
  | [], _, _ => []
  | _ :: _, [], _ => []
  | b :: bs, diag :: rest, left =>
    let up := rest.headD 0
    let v := if a = b then diag else min (min diag left) up + 1
    v :: rowAux a bs rest v

/-- One iteration of the outer `i`-loop (index.ts:177-192): produce the next
DP row from the previous one.  The new row starts with `i = prev[0] + 1`. -/
def levStep (t : List Char) (prev : List Nat) (a : Char) : List Nat :=
  (prev.headD 0 + 1) :: rowAux a t prev (prev.headD 0 + 1)

/-- The value `costs[s2.length]` computed by the edit-distance loop of
`fuzzyMatchScore` (index.ts:176-192). -/
def jsLevCost (s t : List Char) : Nat :=
  (s.foldl (levStep t) (List.range (t.length + 1))).getLastD 0

/-- Does `hay` start with `needle`? (prefix test over characters). -/
def startsWithL : List Char → List Char → Bool
  | [], _ => true
  | _ :: _, [] => false
  | a :: ns, b :: hs => a == b && startsWithL ns hs

/-- `String.prototype.includes`: does `hay` contain `needle` as a contiguous
substring? -/
def hasSub (needle : List Char) : List Char → Bool
  | [] => startsWithL needle []
  | c :: hs => startsWithL needle (c :: hs) || hasSub needle hs

/-- The `longer` string of `fuzzyMatchScore` (index.ts:165). -/
def longerOf (s1 s2 : List Char) : List Char :=
  if s2.length < s1.length then s1 else s2

/-- The `shorter` string of `fuzzyMatchScore` (index.ts:166). -/
def shorterOf (s1 s2 : List Char) : List Char :=
  if s2.length < s1.length then s2 else s1

/-- `.toLowerCase().trim()`, as applied to both arguments of
`fuzzyMatchScore` (index.ts:159-160). -/
def ltL (s : String) : List Char := trimL (lowerL s.data)

/-- The part of `fuzzyMatchScore` after the two early returns
(index.ts:164-194), on the lowercased-and-trimmed strings. -/
def fuzzyCore (s1 s2 : List Char) : ℚ :=
  if (longerOf s1 s2).length = 0 then 1
  else if hasSub (shorterOf s1 s2) (longerOf s1 s2) then
    ((shorterOf s1 s2).length : ℚ) / ((longerOf s1 s2).length : ℚ)
  else
    (((longerOf s1 s2).length : ℚ) - (jsLevCost s1 s2 : ℚ)) / ((longerOf s1 s2).length : ℚ)

/-- `fuzzyMatchScore` (index.ts:156-195).  JavaScript numbers are modelled as
exact rationals. -/
def fuzzyMatchScore (str1 str2 : String) : ℚ :=
  if str1 = "" ∨ str2 = "" then 0
  else if ltL str1 = ltL str2 then 1
  else fuzzyCore (ltL str1) (ltL str2)


/-! ## `parsePythonDict` (index.ts:134-153): strict JSON parse with a
Python-dialect fallback -/

/-- JSON values, the possible results of `JSON.parse`. -/
inductive JVal where
  | null : JVal
  | bool : Bool → JVal
  | num : ℚ → JVal
  | str : String → JVal
  | arr : List JVal → JVal
  | obj : List (String × JVal) → JVal

/-- Whitespace accepted by the JSON grammar. -/
def jsonWs (c : Char) : Bool := c == ' ' || c == '\t' || c == '\n' || c == '\r'

/-- Hexadecimal digit value, for `\u` escapes. -/
def hexVal (c : Char) : Option Nat :=
  if '0' ≤ c ∧ c ≤ '9' then some (c.toNat - 48)
  else if 'a' ≤ c ∧ c ≤ 'f' then some (c.toNat - 87)
  else if 'A' ≤ c ∧ c ≤ 'F' then some (c.toNat - 55)
  else none

/-- Decimal digit prefix of a character list. -/
def digitsPrefix (l : List Char) : List Char := l.takeWhile (fun c => '0' ≤ c && c ≤ '9')

/-- Numeric value of a list of decimal digits. -/
def digitsToNat (l : List Char) : Nat := l.foldl (fun a c => a * 10 + (c.toNat - 48)) 0

/-- JSON string-literal body (after the opening quote), with escapes. -/
def parseStrBody : Nat → List Char → Option (List Char × List Char)
  | 0, _ => none
  | _ + 1, [] => none
  | fuel + 1, c :: cs =>
    if c == '"' then some ([], cs)
    else if c == Char.ofNat 92 then
      match cs with
      | [] => none
      | e :: cs2 =>
        let esc : Option (Char × List Char) :=
          if e == '"' then some ('"', cs2)
          else if e == Char.ofNat 92 then some (Char.ofNat 92, cs2)
          else if e == '/' then some ('/', cs2)
          else if e == 'b' then some (Char.ofNat 8, cs2)
          else if e == 'f' then some (Char.ofNat 12, cs2)
          else if e == 'n' then some ('\n', cs2)
          else if e == 'r' then some ('\r', cs2)
          else if e == 't' then some ('\t', cs2)
          else if e == 'u' then
            match cs2 with
            | h1 :: h2 :: h3 :: h4 :: cs3 =>
              match hexVal h1, hexVal h2, hexVal h3, hexVal h4 with
              | some a, some b, some c3, some d =>
                some (Char.ofNat (((a * 16 + b) * 16 + c3) * 16 + d), cs3)
              | _, _, _, _ => none
            | _ => none
          else none
        match esc with
        | some (ch, rest) => (parseStrBody fuel rest).map (fun p => (ch :: p.1, p.2))
        | none => none
    else if c.toNat < 32 then none
    else (parseStrBody fuel cs).map (fun p => (c :: p.1, p.2))

/-- JSON number (strict grammar; value as an exact rational). -/
def parseNum (l : List Char) : Option (ℚ × List Char) :=
  let sr : ℚ × List Char :=
    match l with
    | c :: cs => if c == '-' then (-1, cs) else (1, l)
    | [] => (1, l)
  let ip := digitsPrefix sr.2
  if ip.isEmpty then none
  else
    let r2 := sr.2.drop ip.length
    let fr : List Char × List Char :=
      match r2 with
      | c :: cs =>
        if c == '.' ∧ ¬(digitsPrefix cs).isEmpty then
          (digitsPrefix cs, cs.drop (digitsPrefix cs).length)
        else ([], r2)
      | [] => ([], r2)
    let er : Int × List Char :=
      match fr.2 with
      | c :: cs =>
        if c == 'e' || c == 'E' then
          let sc : Int × List Char :=
            match cs with
            | d :: ds => if d == '-' then (-1, ds) else if d == '+' then (1, ds) else (1, cs)
            | [] => (1, cs)
          let eds := digitsPrefix sc.2
          if eds.isEmpty then (0, fr.2) else (sc.1 * digitsToNat eds, sc.2.drop eds.length)
        else (0, fr.2)
      | [] => (0, fr.2)
    some (sr.1 * ((digitsToNat ip : ℚ) + (digitsToNat fr.1 : ℚ) / (10 : ℚ) ^ fr.1.length) *
      (10 : ℚ) ^ er.1, er.2)

mutual

/-- Recursive-descent model of `JSON.parse`: one JSON value, returning the
unconsumed remainder. -/
def parseVal : Nat → List Char → Option (JVal × List Char)
  | 0, _ => none
  | fuel + 1, l0 =>
    let l := l0.dropWhile jsonWs
    match l with
    | [] => none
    | c :: cs =>
      if c == Char.ofNat 123 then
        match cs.dropWhile jsonWs with
        | c2 :: cs2 =>
          if c2 == Char.ofNat 125 then some (JVal.obj [], cs2)
          else
            match parseMembers fuel cs with
            | some (ms, rest) => some (JVal.obj ms, rest)
            | none => none
        | [] => none
      else if c == '[' then
        match cs.dropWhile jsonWs with
        | c2 :: cs2 =>
          if c2 == ']' then some (JVal.arr [], cs2)
          else
            match parseElems fuel cs with
            | some (vs, rest) => some (JVal.arr vs, rest)
            | none => none
        | [] => none
      else if c == '"' then
        match parseStrBody (cs.length + 1) cs with
        | some (sChars, rest) => some (JVal.str ⟨sChars⟩, rest)
        | none => none
      else if startsWithL "true".data l then some (JVal.bool true, l.drop 4)
      else if startsWithL "false".data l then some (JVal.bool false, l.drop 5)
      else if startsWithL "null".data l then some (JVal.null, l.drop 4)
      else
        match parseNum l with
        | some (q, rest) => some (JVal.num q, rest)
        | none => none

/-- Object members: `"key" : value` separated by commas, ending at `}`. -/
def parseMembers : Nat → List Char → Option (List (String × JVal) × List Char)
  | 0, _ => none
  | fuel + 1, l =>
    match l.dropWhile jsonWs with
    | [] => none
    | c :: cs =>
      if c == '"' then
        match parseStrBody (cs.length + 1) cs with
        | some (key, rest) =>
          match rest.dropWhile jsonWs with
          | ':' :: rest2 =>
            match parseVal fuel rest2 with
            | some (v, rest3) =>
              match rest3.dropWhile jsonWs with
              | [] => none
              | c2 :: rest4 =>
                if c2 == ',' then
                  match parseMembers fuel rest4 with
                  | some (ms, rest5) => some ((⟨key⟩, v) :: ms, rest5)
                  | none => none
                else if c2 == Char.ofNat 125 then some ([(⟨key⟩, v)], rest4)
                else none
            | none => none
          | _ => none
        | none => none
      else none

/-- Array elements separated by commas, ending at `]`. -/
def parseElems : Nat → List Char → Option (List JVal × List Char)
  | 0, _ => none
  | fuel + 1, l =>
    match parseVal fuel l with
    | some (v, rest) =>
      match rest.dropWhile jsonWs with
      | [] => none
      | c :: rest2 =>
        if c == ',' then
          match parseElems fuel rest2 with
          | some (vs, rest3) => some (v :: vs, rest3)
          | none => none
        else if c == ']' then some ([v], rest2)
        else none
    | none => none

end

/-- `JSON.parse`: a full JSON document (trailing whitespace allowed, trailing
garbage rejected). -/
def jsonParse (l : List Char) : Option JVal :=
  match parseVal (2 * l.length + 2) l with
  | some (v, rest) => if (rest.dropWhile jsonWs).isEmpty then some v else none
  | none => none

/-- Replace every occurrence of `pat` (nonempty) in a character list,
scanning left to right: `String.prototype.replace` with a global pattern. -/
def replaceAllAux (pat rep : List Char) : Nat → List Char → List Char
  | 0, l => l
  | _ + 1, [] => []
  | fuel + 1, c :: cs =>
    if startsWithL pat (c :: cs) then
      rep ++ replaceAllAux pat rep fuel (List.drop (pat.length - 1) cs)
    else c :: replaceAllAux pat rep fuel cs

/-- `.replace(/pat/g, rep)` for a literal pattern. -/
def replaceAllSub (pat rep l : List Char) : List Char := replaceAllAux pat rep l.length l

/-- The Python-to-JSON text substitution of `parsePythonDict`
(index.ts:143-147): single quotes to double quotes, `None`/`True`/`False`
to `null`/`true`/`false`. -/
def pyFix (l : List Char) : List Char :=
  replaceAllSub "False".data "false".data
    (replaceAllSub "True".data "true".data
      (replaceAllSub "None".data "null".data
        (replaceAllSub [Char.ofNat 39] ['"'] l)))

/-- `parsePythonDict` (index.ts:134-153): `null` for a non-string input,
else strict `JSON.parse`, else the Python-dialect substitution and a second
parse, else `null`. -/
def parsePythonDict : Option String → Option JVal
  | none => none
  | some s =>
    if s = "" then none
    else
      match jsonParse s.data with
      | some v => some v
      | none => jsonParse (pyFix s.data)

/-! ## Candidate records and the field extractor (index.ts:291-316) -/

/-- A raw row of `Salesforce_rawData` as consumed by the ranking loop.
All fields are `Option String`: `none` models SQL `NULL`. -/
structure SfRecord where
  Name : Option String
  Year_Built__c : Option String
  Net_RSF__c : Option String
  ShippingAddress : Option String

/-- A scored match as pushed in index.ts:331-341. -/
structure ScoredMatch where
  Name : String
  Year_Built__c : Option String
  Net_RSF__c : Option String
  ShippingAddress : Option String
  nameScore : ℚ
  addressScore : ℚ
  combinedScore : ℚ
  parsedStoreName : String
  parsedAddress : String

/-- Object property access `obj.key` on a parsed JSON object: the last
duplicate key wins, as in `JSON.parse`. -/
def objLookup (key : String) (ms : List (String × JVal)) : Option JVal :=
  (ms.reverse.find? (fun p => p.1 == key)).map (·.2)

/-- The structured branch of street extraction (index.ts:299-302):
`shippingAddress && shippingAddress.street`.  A truthy `street` value that is
not a string would make the original code throw inside
`normalizeAddress(sfStreet).toLowerCase`, so only string values occur in
non-crashing executions and only those are modelled. -/
def shippingStreet (sa : Option String) : Option String :=
  match parsePythonDict sa with
  | some (JVal.obj ms) =>
    match objLookup "street" ms with
    | some (JVal.str s) => if s = "" then none else some s
    | _ => none
  | _ => none

/-- Split at every occurrence of a (nonempty) separator:
`String.prototype.split` with a string separator. -/
def splitOnAux (sep : List Char) : Nat → List Char → List Char → List (List Char)
  | 0, acc, l => [acc.reverse ++ l]
  | _ + 1, acc, [] => [acc.reverse]
  | fuel + 1, acc, c :: cs =>
    if startsWithL sep (c :: cs) then
      acc.reverse :: splitOnAux sep fuel [] (List.drop (sep.length - 1) cs)
    else splitOnAux sep fuel (c :: acc) cs

/-- `s.split(sep)` for a nonempty literal separator. -/
def splitOnL (sep l : List Char) : List (List Char) := splitOnAux sep l.length [] l

/-- `sfStoreBrand` (index.ts:295): text before the first `' - '`, trimmed;
the full name when there is no separator. -/
def sfStoreBrand (sfName : String) : String :=
  if hasSub " - ".data sfName.data then ⟨trimL ((splitOnL " - ".data sfName.data).headD [])⟩
  else sfName

/-- The street-suffix alternatives of the regex in index.ts:310. -/
def suffixTokens : List String := ["st", "ave", "rd", "blvd", "dr", "way", "lane", "court"]

/-- index.ts:309-310: `/\d+/.test(p) || /(st|ave|rd|blvd|dr|way|lane|court)/i.test(p)`
(a bare case-insensitive substring test, not a whole-word test). -/
def looksLikeAddress (p : List Char) : Bool :=
  p.any (fun c => '0' ≤ c && c ≤ '9') || suffixTokens.any (fun t => hasSub t.data (lowerL p))

/-- The name-based fallback street extraction (index.ts:303-314). -/
def nameStreet (sfName : String) : Option String :=
  if hasSub " - ".data sfName.data then
    let nameParts := splitOnL " - ".data sfName.data
    if 2 ≤ nameParts.length then
      let potentialAddress := trimL (nameParts.getD 1 [])
      if looksLikeAddress potentialAddress then some ⟨potentialAddress⟩ else none
    else none
  else none

/-- The complete street extraction for one record (index.ts:297-316),
`none` meaning the record is skipped (`if (!sfStreet) continue`). -/
def extractStreet (record : SfRecord) : Option String :=
  match shippingStreet record.ShippingAddress with
  | some s => some s
  | none => nameStreet (record.Name.getD "")

/-! ## Match ranker (`getSalesforceMetadataByAddress`, index.ts:251-351) -/

/-- The query parameters of `getSalesforceMetadataByAddress`; `city`, `state`
and `postalCode` are accepted but unused in scoring. -/
structure AddressParams where
  street : String
  city : String
  state : String
  postalCode : String
  storeName : Option String

/-- Score one candidate record (the body of the `for` loop,
index.ts:291-343), `none` when the record is skipped or filtered out.
The weights `0.4` / `0.6` and thresholds `0.3` / `0.5` are the exact
rationals `4/10`, `6/10`, `3/10`, `1/2`. -/
def scoreRecord (targetStoreName targetStreet : String) (record : SfRecord) :
    Option ScoredMatch :=
  let sfName := record.Name.getD ""
  let brand := sfStoreBrand sfName
  match extractStreet record with
  | none => none
  | some sfStreet =>
    let nameScoreFull := fuzzyMatchScore targetStoreName ⟨lowerL sfName.data⟩
    let nameScoreBrand := fuzzyMatchScore targetStoreName ⟨lowerL brand.data⟩
    let nameScore := max nameScoreFull nameScoreBrand
    let normalizedSfStreet := normalizeAddress sfStreet
    let addressScore := fuzzyMatchScore targetStreet normalizedSfStreet
    let combinedScore := nameScore * (4 / 10) + addressScore * (6 / 10)
    if combinedScore > 3 / 10 ∨ addressScore > 1 / 2 then
      some { Name := sfName, Year_Built__c := record.Year_Built__c,
             Net_RSF__c := record.Net_RSF__c, ShippingAddress := record.ShippingAddress,
             nameScore := nameScore, addressScore := addressScore,
             combinedScore := combinedScore, parsedStoreName := brand,
             parsedAddress := sfStreet }
    else none

/-- The target-name prelude of the ranker (index.ts:277):
`(params.storeName || '').toLowerCase().trim()`. -/
def targetNameOf (params : AddressParams) : String :=
  ⟨trimL (lowerL (params.storeName.getD "").data)⟩

/-- The sort relation of `scoredMatches.sort((a, b) => b.combinedScore - a.combinedScore)`:
`a` may stay before `b` iff the comparator is `≤ 0`. -/
def rankRel (a b : ScoredMatch) : Prop := b.combinedScore ≤ a.combinedScore

instance : DecidableRel rankRel := fun a b =>
  inferInstanceAs (Decidable (b.combinedScore ≤ a.combinedScore))

/-- `getSalesforceMetadataByAddress` (index.ts:251-351) from the fetched rows
on: extract and score every record, sort by combined score descending with a
stable sort (V8's `Array.prototype.sort` is stable), return the top 10. -/
def getSalesforceMetadataByAddress (params : AddressParams) (results : List SfRecord) :
    List ScoredMatch :=
  let targetStreet := normalizeAddress params.street
  let scoredMatches := results.filterMap (scoreRecord (targetNameOf params) targetStreet)
  (List.insertionSort rankRel scoredMatches).take 10

/-- Index-tagged scoring, for stating stability of the sort. -/
def scoreRecordIdx (targetStoreName targetStreet : String) (p : Nat × SfRecord) :
    Option (Nat × ScoredMatch) :=
  (scoreRecord targetStoreName targetStreet p.2).map (fun m => (p.1, m))

/-- The sort relation of the ranker, lifted to index-tagged matches
(the comparator reads only `combinedScore`). -/
def rankRelIdx (a b : Nat × ScoredMatch) : Prop := b.2.combinedScore ≤ a.2.combinedScore

instance : DecidableRel rankRelIdx := fun a b =>
  inferInstanceAs (Decidable (b.2.combinedScore ≤ a.2.combinedScore))

/-- The ranker with every surviving candidate tagged by the position of the
record it came from. -/
def rankIndexed (params : AddressParams) (results : List SfRecord) :
    List (Nat × ScoredMatch) :=
  let targetStreet := normalizeAddress params.street
  let scoredMatches := results.enum.filterMap (scoreRecordIdx (targetNameOf params) targetStreet)
  (List.insertionSort rankRelIdx scoredMatches).take 10

/-! ## Client-side numeric sanitization (`src/lib/api.ts:242-302`) -/

/-- `parseInt(s, 10)`: skip whitespace, optional sign, longest digit prefix;
`NaN` (here `none`) when no digits are found. -/
def jsParseInt10 (s : String) : Option Int :=
  let cs := s.data.dropWhile isJsWs
  let sr : Int × List Char :=
    match cs with
    | c :: cs2 => if c == '-' then (-1, cs2) else if c == '+' then (1, cs2) else (1, cs)
    | [] => (1, cs)
  let ds := digitsPrefix sr.2
  if ds.isEmpty then none else some (sr.1 * digitsToNat ds)

/-- `parseFloat(s)`: skip whitespace, optional sign, longest decimal prefix
with optional fraction and exponent; `NaN` (here `none`) when no digits are
found.  (`"Infinity"` is not modelled; no claim touches it.) -/
def jsParseFloat (s : String) : Option ℚ :=
  let cs := s.data.dropWhile isJsWs
  let sr : ℚ × List Char :=
    match cs with
    | c :: cs2 => if c == '-' then (-1, cs2) else if c == '+' then (1, cs2) else (1, cs)
    | [] => (1, cs)
  let ip := digitsPrefix sr.2
  let r1 := sr.2.drop ip.length
  let fr : List Char × List Char :=
    match r1 with
    | c :: cs2 => if c == '.' then (digitsPrefix cs2, cs2.drop (digitsPrefix cs2).length) else ([], r1)
    | [] => ([], r1)
  if ip.isEmpty ∧ fr.1.isEmpty then none
  else
    let ex : Int :=
      match fr.2 with
      | c :: cs2 =>
        if c == 'e' || c == 'E' then
          let sc : Int × List Char :=
            match cs2 with
            | d :: ds => if d == '-' then (-1, ds) else if d == '+' then (1, ds) else (1, cs2)
            | [] => (1, cs2)
          let eds := digitsPrefix sc.2
          if eds.isEmpty then 0 else sc.1 * digitsToNat eds
        else 0
      | [] => 0
    some (sr.1 * ((digitsToNat ip : ℚ) + (digitsToNat fr.1 : ℚ) / (10 : ℚ) ^ fr.1.length) *
      (10 : ℚ) ^ ex)

/-- The client-side result shape of api.ts:248-253. -/
structure SalesforceMetadata where
  yearBuilt : Option Int
  squareFootage : Option ℚ
  matched : Bool
  matchScore : Option ℚ

/-- api.ts:278-283: `Year_Built__c` is reported only when truthy, parsing as
an integer in `[1900, 2030]`. -/
def sanitizeYearBuilt (raw : Option String) : Option Int :=
  match raw with
  | none => none
  | some s =>
    if s = "" then none
    else
      match jsParseInt10 s with
      | none => none
      | some n => if 1900 ≤ n ∧ n ≤ 2030 then some n else none

/-- api.ts:285-290: `Net_RSF__c` is reported only when truthy, parsing as a
strictly positive number. -/
def sanitizeSquareFootage (raw : Option String) : Option ℚ :=
  match raw with
  | none => none
  | some s =>
    if s = "" then none
    else
      match jsParseFloat s with
      | none => none
      | some q => if 0 < q then some q else none

/-- api.ts:292-297: the sanitized metadata of the best match; the match
itself stays valid (`matched: true`) whatever the numeric fields do. -/
def salesforceMetadataOfRecord (record : ScoredMatch) : SalesforceMetadata :=
  { yearBuilt := sanitizeYearBuilt record.Year_Built__c,
    squareFootage := sanitizeSquareFootage record.Net_RSF__c,
    matched := true,
    matchScore := some record.combinedScore }

/-- api.ts:266-297: `null` for an empty result list, else the sanitized
metadata of the first (best) match. -/
def getSalesforceMetadataClient (results : List ScoredMatch) : Option SalesforceMetadata :=
  match results with
  | [] => none
  | record :: _ => some (salesforceMetadataOfRecord record)

/-! ## Branch characterizations of the fuzzy scorer -/

theorem fuzzy_eq_zero {a b : String} (h : a = "" ∨ b = "") : fuzzyMatchScore a b = 0 := by
  unfold fuzzyMatchScore
  rw [if_pos h]

theorem fuzzy_eq_one {a b : String} (h0 : ¬(a = "" ∨ b = "")) (h : ltL a = ltL b) :
    fuzzyMatchScore a b = 1 := by
  unfold fuzzyMatchScore
  rw [if_neg h0, if_pos h]

theorem fuzzy_eq_core {a b : String} (h0 : ¬(a = "" ∨ b = "")) (h : ltL a ≠ ltL b) :
    fuzzyMatchScore a b = fuzzyCore (ltL a) (ltL b) := by
  unfold fuzzyMatchScore
  rw [if_neg h0, if_neg h]

theorem fuzzyCore_contain {s1 s2 : List Char} (h0 : (longerOf s1 s2).length ≠ 0)
    (hc : hasSub (shorterOf s1 s2) (longerOf s1 s2) = true) :
    fuzzyCore s1 s2 = ((shorterOf s1 s2).length : ℚ) / ((longerOf s1 s2).length : ℚ) := by
  unfold fuzzyCore
  rw [if_neg h0, if_pos hc]

theorem fuzzyCore_edit {s1 s2 : List Char} (h0 : (longerOf s1 s2).length ≠ 0)
    (hc : hasSub (shorterOf s1 s2) (longerOf s1 s2) = false) :
    fuzzyCore s1 s2 =
      (((longerOf s1 s2).length : ℚ) - (jsLevCost s1 s2 : ℚ)) / ((longerOf s1 s2).length : ℚ) := by
  unfold fuzzyCore
  rw [if_neg h0, hc]
  simp

/-- `fuzzyMatchScore "acme" "acme storage - 456 oak ave"`: containment
shortcut, `4/26`. -/
theorem fuzzy_acme_full : fuzzyMatchScore "acme" "acme storage - 456 oak ave" = 2 / 13 := by
  rw [fuzzy_eq_core (by decide) (by decide), fuzzyCore_contain (by decide) (by decide)]
  rw [show (shorterOf (ltL "acme") (ltL "acme storage - 456 oak ave")).length = 4 by decide,
      show (longerOf (ltL "acme") (ltL "acme storage - 456 oak ave")).length = 26 by decide]
  norm_num

/-- `fuzzyMatchScore "acme" "acme storage"`: containment shortcut, `4/12`. -/
theorem fuzzy_acme_brand : fuzzyMatchScore "acme" "acme storage" = 1 / 3 := by
  rw [fuzzy_eq_core (by decide) (by decide), fuzzyCore_contain (by decide) (by decide)]
  rw [show (shorterOf (ltL "acme") (ltL "acme storage")).length = 4 by decide,
      show (longerOf (ltL "acme") (ltL "acme storage")).length = 12 by decide]
  norm_num

theorem fuzzy_oak_self : fuzzyMatchScore "456 oak ave" "456 oak ave" = 1 :=
  fuzzy_eq_one (by decide) (by decide)

/-! ## Concrete evaluation of the ranker on the specification's example -/

/-- The query of the specification's ranker example. -/
def acmeParams : AddressParams := ⟨"456 Oak Avenue", "", "", "", some "Acme"⟩

/-- The candidate record of the specification's ranker example. -/
def acmeRecord : SfRecord := ⟨some "Acme Storage - 456 Oak Ave", none, none, none⟩

/-- The scored match the ranker produces for `acmeParams` against `acmeRecord`. -/
def acmeMatch : ScoredMatch :=
  ⟨"Acme Storage - 456 Oak Ave", none, none, none, 1 / 3, 1, 11 / 15, "Acme Storage",
   "456 Oak Ave"⟩

theorem scoreRecord_acme : scoreRecord "acme" "456 oak ave" acmeRecord = some acmeMatch := by
  simp only [scoreRecord,
    show acmeRecord.Name.getD "" = "Acme Storage - 456 Oak Ave" by decide,
    show acmeRecord.Year_Built__c = none from rfl,
    show acmeRecord.Net_RSF__c = none from rfl,
    show acmeRecord.ShippingAddress = none from rfl,
    show extractStreet acmeRecord = some "456 Oak Ave" by decide,
    show sfStoreBrand "Acme Storage - 456 Oak Ave" = "Acme Storage" by decide,
    show (⟨lowerL "Acme Storage - 456 Oak Ave".data⟩ : String) =
      "acme storage - 456 oak ave" by decide,
    show (⟨lowerL "Acme Storage".data⟩ : String) = "acme storage" by decide,
    show normalizeAddress "456 Oak Ave" = "456 oak ave" by decide,
    fuzzy_acme_full, fuzzy_acme_brand, fuzzy_oak_self]
  rw [max_eq_right (by norm_num : (2 : ℚ) / 13 ≤ 1 / 3)]
  rw [if_pos (Or.inl (by norm_num : (1 : ℚ) / 3 * (4 / 10) + 1 * (6 / 10) > 3 / 10))]
  simp only [acmeMatch, ScoredMatch.mk.injEq, Option.some.injEq]
  norm_num

/-! ## The DP loop of `fuzzyMatchScore` computes the Levenshtein distance -/

theorem levRec_nil_left (t : List Char) : levRec [] t = t.length := by
  cases t <;> simp [levRec]

theorem levRec_nil_right (s : List Char) : levRec s [] = s.length := by
  cases s <;> simp [levRec]

theorem levRec_cons_cons (a b : Char) (s t : List Char) :
    levRec (a :: s) (b :: t) =
      if a = b then levRec s t
      else min (min (levRec s (b :: t)) (levRec (a :: s) t)) (levRec s t) + 1 := by
  simp [levRec]

theorem min3_rot (x y z : ℕ) : min (min x y) z = min (min z y) x := by
  rw [min_comm (min x y) z, min_comm x y, ← min_assoc]

/-- The previous DP row, as distances from `u` to the successive reversed
prefixes of the remaining text: starting prefix `q`, then `b :: q`, … -/
def rowOf (u q : List Char) : List Char → List Nat
  | [] => [levRec u q]
  | b :: bs => levRec u q :: rowOf u (b :: q) bs

/-- `rowOf` without its first entry. -/
def rowTailOf (u q : List Char) : List Char → List Nat
  | [] => []
  | b :: bs => levRec u (b :: q) :: rowTailOf u (b :: q) bs

theorem rowOf_eq (u : List Char) : ∀ (bs q : List Char),
    rowOf u q bs = levRec u q :: rowTailOf u q bs := by
  intro bs
  induction bs with
  | nil => intro q; rfl
  | cons b bs ih => intro q; simp [rowOf, rowTailOf, ih (b :: q)]

theorem headD_rowOf (u q bs : List Char) : (rowOf u q bs).headD 0 = levRec u q := by
  cases bs <;> rfl

theorem rowAux_ok (a : Char) (u : List Char) : ∀ (bs q : List Char),
    rowAux a bs (rowOf u q bs) (levRec (a :: u) q) = rowTailOf (a :: u) q bs := by
  intro bs
  induction bs with
  | nil => intro q; rfl
  | cons b bs ih =>
    intro q
    show rowAux a (b :: bs) (levRec u q :: rowOf u (b :: q) bs) (levRec (a :: u) q) = _
    simp only [rowAux, headD_rowOf]
    have hv : (if a = b then levRec u q
        else min (min (levRec u q) (levRec (a :: u) q)) (levRec u (b :: q)) + 1) =
        levRec (a :: u) (b :: q) := by
      rw [levRec_cons_cons]
      by_cases hab : a = b
      · simp [hab]
      · simp only [if_neg hab]
        rw [min3_rot]
    rw [hv, ih (b :: q), rowTailOf]

theorem levStep_ok (t u : List Char) (a : Char) :
    levStep t (rowOf u [] t) a = rowOf (a :: u) [] t := by
  unfold levStep
  rw [headD_rowOf]
  have h0 : levRec u [] + 1 = levRec (a :: u) [] := by
    rw [levRec_nil_right, levRec_nil_right]; rfl
  rw [h0, rowAux_ok a u t [], ← rowOf_eq]

theorem foldl_levStep (t : List Char) : ∀ (s u : List Char),
    s.foldl (levStep t) (rowOf u [] t) = rowOf (s.reverse ++ u) [] t := by
  intro s
  induction s with
  | nil => intro u; rfl
  | cons a s ih =>
    intro u
    simp only [List.foldl_cons, levStep_ok, ih (a :: u)]
    rw [List.reverse_cons, List.append_assoc, List.singleton_append]

theorem rowOf_nil_eq_range' : ∀ (bs q : List Char),
    rowOf [] q bs = List.range' q.length (bs.length + 1) := by
  intro bs
  induction bs with
  | nil => intro q; simp [rowOf, levRec_nil_left, List.range']
  | cons b bs ih =>
    intro q
    simp only [rowOf, levRec_nil_left, ih (b :: q), List.range']
    simp

theorem getLastD_rowOf (u : List Char) : ∀ (bs q : List Char) (d : Nat),
    (rowOf u q bs).getLastD d = levRec u (bs.reverse ++ q) := by
  intro bs
  induction bs with
  | nil => intro q d; rfl
  | cons b bs ih =>
    intro q d
    simp only [rowOf, List.getLastD_cons, ih (b :: q)]
    rw [List.reverse_cons, List.append_assoc, List.singleton_append]

/-- The rolling-row loop of `fuzzyMatchScore` computes exactly the Levenshtein
distance of the reversed inputs (hence, by `levRec_rev`, of the inputs). -/
theorem jsLevCost_eq (s t : List Char) : jsLevCost s t = levRec s.reverse t.reverse := by
  unfold jsLevCost
  rw [List.range_eq_range', show (0 : ℕ) = ([] : List Char).length from rfl,
    ← rowOf_nil_eq_range' t [], foldl_levStep t s [], getLastD_rowOf]
  simp

/-! ## Edit scripts: symmetry, reversal invariance and bounds of `levRec` -/

/-- Left-to-right edit scripts: `EditSeq s t n` holds when `s` turns into `t`
by `n` single-character substitutions, deletions and insertions (plus free
copies). -/
inductive EditSeq : List Char → List Char → Nat → Prop
  | nil : EditSeq [] [] 0
  | copy (a : Char) {s t : List Char} {n : Nat} : EditSeq s t n → EditSeq (a :: s) (a :: t) n
  | subst (a b : Char) {s t : List Char} {n : Nat} :
      EditSeq s t n → EditSeq (a :: s) (b :: t) (n + 1)
  | del (a : Char) {s t : List Char} {n : Nat} : EditSeq s t n → EditSeq (a :: s) t (n + 1)
  | ins (b : Char) {s t : List Char} {n : Nat} : EditSeq s t n → EditSeq s (b :: t) (n + 1)

theorem editSeq_nil_left : ∀ t : List Char, EditSeq [] t t.length
  | [] => EditSeq.nil
  | b :: t => EditSeq.ins b (editSeq_nil_left t)

theorem editSeq_nil_right : ∀ s : List Char, EditSeq s [] s.length
  | [] => EditSeq.nil
  | a :: s => EditSeq.del a (editSeq_nil_right s)

theorem editSeq_levRec_aux : ∀ (n : ℕ) (s t : List Char), s.length + t.length ≤ n →
    EditSeq s t (levRec s t) := by
  intro n
  induction n with
  | zero =>
    intro s t h
    have hs : s = [] := List.length_eq_zero.mp (by omega)
    have ht : t = [] := List.length_eq_zero.mp (by omega)
    subst hs; subst ht
    simpa [levRec_nil_left] using EditSeq.nil
  | succ n ih =>
    intro s t h
    cases s with
    | nil => rw [levRec_nil_left]; exact editSeq_nil_left t
    | cons a s =>
      cases t with
      | nil => rw [levRec_nil_right]; exact editSeq_nil_right _
      | cons b t =>
        rw [levRec_cons_cons]
        by_cases hab : a = b
        · rw [if_pos hab]
          subst hab
          exact EditSeq.copy a (ih s t (by simp only [List.length_cons] at h; omega))
        · rw [if_neg hab]
          rcases min_cases (min (levRec s (b :: t)) (levRec (a :: s) t)) (levRec s t) with
            ⟨hm, _⟩ | ⟨hm, _⟩
          · rcases min_cases (levRec s (b :: t)) (levRec (a :: s) t) with ⟨hm2, _⟩ | ⟨hm2, _⟩
            · rw [hm, hm2]
              exact EditSeq.del a (ih s (b :: t) (by simp only [List.length_cons] at h ⊢; omega))
            · rw [hm, hm2]
              exact EditSeq.ins b (ih (a :: s) t (by simp only [List.length_cons] at h ⊢; omega))
          · rw [hm]
            exact EditSeq.subst a b (ih s t (by simp only [List.length_cons] at h; omega))

/-- `levRec s t` is realized by an edit script. -/
theorem editSeq_levRec (s t : List Char) : EditSeq s t (levRec s t) :=
  editSeq_levRec_aux (s.length + t.length) s t le_rfl

theorem lev_adj : ∀ (n : ℕ) (s t : List Char), s.length + t.length ≤ n →
    ((∀ b, levRec s (b :: t) ≤ levRec s t + 1) ∧ (∀ a, levRec (a :: s) t ≤ levRec s t + 1) ∧
     (∀ b, levRec s t ≤ levRec s (b :: t) + 1) ∧ (∀ a, levRec s t ≤ levRec (a :: s) t + 1)) := by
  intro n
  induction n with
  | zero =>
    intro s t h
    have hs : s = [] := List.length_eq_zero.mp (by omega)
    have ht : t = [] := List.length_eq_zero.mp (by omega)
    subst hs; subst ht
    simp [levRec_nil_left, levRec_nil_right]
  | succ n ih =>
    intro s t h
    refine ⟨?_, ?_, ?_, ?_⟩
    · intro b
      cases s with
      | nil => simp [levRec_nil_left]
      | cons a s =>
        rw [levRec_cons_cons]
        by_cases hab : a = b
        · rw [if_pos hab]
          exact (ih s t (by simp only [List.length_cons] at h; omega)).2.2.2 a
        · rw [if_neg hab]
          have h1 := min_le_right (levRec s (b :: t)) (levRec (a :: s) t)
          have h2 := min_le_left (min (levRec s (b :: t)) (levRec (a :: s) t)) (levRec s t)
          omega
    · intro a
      cases t with
      | nil => simp [levRec_nil_right]
      | cons b t =>
        rw [levRec_cons_cons]
        by_cases hab : a = b
        · rw [if_pos hab]
          exact (ih s t (by simp only [List.length_cons] at h; omega)).2.2.1 b
        · rw [if_neg hab]
          have h1 := min_le_left (levRec s (b :: t)) (levRec (a :: s) t)
          have h2 := min_le_left (min (levRec s (b :: t)) (levRec (a :: s) t)) (levRec s t)
          omega
    · intro b
      cases s with
      | nil => simp only [levRec_nil_left, List.length_cons]; omega
      | cons a s =>
        rw [levRec_cons_cons]
        by_cases hab : a = b
        · rw [if_pos hab]
          exact (ih s t (by simp only [List.length_cons] at h; omega)).2.1 a
        · rw [if_neg hab]
          have hx := (ih s t (by simp only [List.length_cons] at h; omega)).2.1 a
          have hy := (ih s t (by simp only [List.length_cons] at h; omega)).2.2.1 b
          rcases min_cases (min (levRec s (b :: t)) (levRec (a :: s) t)) (levRec s t) with
            ⟨hm, _⟩ | ⟨hm, hm'⟩ <;>
            rcases min_cases (levRec s (b :: t)) (levRec (a :: s) t) with ⟨hm2, _⟩ | ⟨hm2, hm2'⟩ <;>
            omega
    · intro a
      cases t with
      | nil => simp only [levRec_nil_right, List.length_cons]; omega
      | cons b t =>
        rw [levRec_cons_cons]
        by_cases hab : a = b
        · rw [if_pos hab]
          exact (ih s t (by simp only [List.length_cons] at h; omega)).1 b
        · rw [if_neg hab]
          have hx := (ih s t (by simp only [List.length_cons] at h; omega)).1 b
          have hy := (ih s t (by simp only [List.length_cons] at h; omega)).2.2.2 a
          rcases min_cases (min (levRec s (b :: t)) (levRec (a :: s) t)) (levRec s t) with
            ⟨hm, _⟩ | ⟨hm, hm'⟩ <;>
            rcases min_cases (levRec s (b :: t)) (levRec (a :: s) t) with ⟨hm2, _⟩ | ⟨hm2, hm2'⟩ <;>
            omega

theorem levRec_cons_right_le (s t : List Char) (b : Char) :
    levRec s (b :: t) ≤ levRec s t + 1 :=
  (lev_adj (s.length + t.length) s t le_rfl).1 b

theorem levRec_cons_left_le (s t : List Char) (a : Char) :
    levRec (a :: s) t ≤ levRec s t + 1 :=
  (lev_adj (s.length + t.length) s t le_rfl).2.1 a

/-- `levRec` is minimal over edit scripts. -/
theorem levRec_le_of_editSeq {s t : List Char} {n : ℕ} (h : EditSeq s t n) :
    levRec s t ≤ n := by
  induction h with
  | nil => simp [levRec_nil_left]
  | copy a h ih => rw [levRec_cons_cons, if_pos rfl]; exact ih
  | @subst a b s t n h ih =>
    rw [levRec_cons_cons]
    by_cases hab : a = b
    · rw [if_pos hab]; omega
    · rw [if_neg hab]
      have h2 := min_le_right (min (levRec s (b :: t)) (levRec (a :: s) t)) (levRec s t)
      omega
  | @del a s t n h ih =>
    have := levRec_cons_left_le s t a
    omega
  | @ins b s t n h ih =>
    have := levRec_cons_right_le s t b
    omega

theorem EditSeq.append_copy {s t : List Char} {n : ℕ} (h : EditSeq s t n) (x : Char) :
    EditSeq (s ++ [x]) (t ++ [x]) n := by
  induction h with
  | nil => exact EditSeq.copy x EditSeq.nil
  | copy a _ ih => exact EditSeq.copy a ih
  | subst a b _ ih => exact EditSeq.subst a b ih
  | del a _ ih => exact EditSeq.del a ih
  | ins b _ ih => exact EditSeq.ins b ih

theorem EditSeq.append_subst {s t : List Char} {n : ℕ} (h : EditSeq s t n) (x y : Char) :
    EditSeq (s ++ [x]) (t ++ [y]) (n + 1) := by
  induction h with
  | nil => exact EditSeq.subst x y EditSeq.nil
  | copy a _ ih => exact EditSeq.copy a ih
  | subst a b _ ih => exact EditSeq.subst a b ih
  | del a _ ih => exact EditSeq.del a ih
  | ins b _ ih => exact EditSeq.ins b ih

theorem EditSeq.append_del {s t : List Char} {n : ℕ} (h : EditSeq s t n) (x : Char) :
    EditSeq (s ++ [x]) t (n + 1) := by
  induction h with
  | nil => exact EditSeq.del x EditSeq.nil
  | copy a _ ih => exact EditSeq.copy a ih
  | subst a b _ ih => exact EditSeq.subst a b ih
  | del a _ ih => exact EditSeq.del a ih
  | ins b _ ih => exact EditSeq.ins b ih

theorem EditSeq.append_ins {s t : List Char} {n : ℕ} (h : EditSeq s t n) (y : Char) :
    EditSeq s (t ++ [y]) (n + 1) := by
  induction h with
  | nil => exact EditSeq.ins y EditSeq.nil
  | copy a _ ih => exact EditSeq.copy a ih
  | subst a b _ ih => exact EditSeq.subst a b ih
  | del a _ ih => exact EditSeq.del a ih
  | ins b _ ih => exact EditSeq.ins b ih

/-- Edit scripts survive reversal of both strings. -/
theorem EditSeq.rev {s t : List Char} {n : ℕ} (h : EditSeq s t n) :
    EditSeq s.reverse t.reverse n := by
  induction h with
  | nil => exact EditSeq.nil
  | copy a _ ih => simpa [List.reverse_cons] using ih.append_copy a
  | subst a b _ ih => simpa [List.reverse_cons] using ih.append_subst a b
  | del a _ ih => simpa [List.reverse_cons] using ih.append_del a
  | ins b _ ih => simpa [List.reverse_cons] using ih.append_ins b

/-- Edit scripts survive swapping the two strings. -/
theorem EditSeq.swap {s t : List Char} {n : ℕ} (h : EditSeq s t n) : EditSeq t s n := by
  induction h with
  | nil => exact EditSeq.nil
  | copy a _ ih => exact EditSeq.copy a ih
  | subst a b _ ih => exact EditSeq.subst b a ih
  | del a _ ih => exact EditSeq.ins a ih
  | ins b _ ih => exact EditSeq.del b ih

/-- The Levenshtein distance of the reversed strings is the distance of the
strings. -/
theorem levRec_rev (s t : List Char) : levRec s.reverse t.reverse = levRec s t := by
  refine le_antisymm (levRec_le_of_editSeq (editSeq_levRec s t).rev) ?_
  have := levRec_le_of_editSeq (editSeq_levRec s.reverse t.reverse).rev
  simpa using this

/-- The Levenshtein distance is symmetric. -/
theorem levRec_comm (s t : List Char) : levRec s t = levRec t s :=
  le_antisymm (levRec_le_of_editSeq (editSeq_levRec t s).swap)
    (levRec_le_of_editSeq (editSeq_levRec s t).swap)

theorem levRec_le_max_aux : ∀ (n : ℕ) (s t : List Char), s.length + t.length ≤ n →
    levRec s t ≤ max s.length t.length := by
  intro n
  induction n with
  | zero =>
    intro s t h
    have hs : s = [] := List.length_eq_zero.mp (by omega)
    have ht : t = [] := List.length_eq_zero.mp (by omega)
    subst hs; subst ht
    simp [levRec_nil_left]
  | succ n ih =>
    intro s t h
    cases s with
    | nil => simp [levRec_nil_left]
    | cons a s =>
      cases t with
      | nil => simp [levRec_nil_right]
      | cons b t =>
        rw [levRec_cons_cons]
        have hz := ih s t (by simp only [List.length_cons] at h; omega)
        by_cases hab : a = b
        · rw [if_pos hab]
          rcases max_cases s.length t.length with ⟨hm, _⟩ | ⟨hm, _⟩ <;>
            rcases max_cases (a :: s).length (b :: t).length with ⟨hm2, _⟩ | ⟨hm2, _⟩ <;>
            simp only [List.length_cons] at hm2 ⊢ <;> omega
        · rw [if_neg hab]
          have h2 := min_le_right (min (levRec s (b :: t)) (levRec (a :: s) t)) (levRec s t)
          rcases max_cases s.length t.length with ⟨hm, _⟩ | ⟨hm, _⟩ <;>
            rcases max_cases (a :: s).length (b :: t).length with ⟨hm2, _⟩ | ⟨hm2, _⟩ <;>
            simp only [List.length_cons] at hm2 ⊢ <;> omega

theorem levRec_le_max (s t : List Char) : levRec s t ≤ max s.length t.length :=
  levRec_le_max_aux (s.length + t.length) s t le_rfl

/-! ## Substring and length facts used by the scorer -/

theorem startsWithL_exists {n h : List Char} (hs : startsWithL n h = true) :
    ∃ q, h = n ++ q := by
  induction n generalizing h with
  | nil => exact ⟨h, rfl⟩
  | cons a ns ih =>
    cases h with
    | nil => simp [startsWithL] at hs
    | cons b hs' =>
      simp only [startsWithL, Bool.and_eq_true, beq_iff_eq] at hs
      obtain ⟨rfl, h2⟩ := hs
      obtain ⟨q, rfl⟩ := ih h2
      exact ⟨q, rfl⟩

theorem hasSub_exists {n h : List Char} (hs : hasSub n h = true) :
    ∃ p q, h = p ++ n ++ q := by
  induction h with
  | nil =>
    obtain ⟨q, hq⟩ := startsWithL_exists hs
    exact ⟨[], q, hq⟩
  | cons c hs' ih =>
    rw [hasSub, Bool.or_eq_true] at hs
    rcases hs with hs | hs
    · obtain ⟨q, hq⟩ := startsWithL_exists hs
      exact ⟨[], q, hq⟩
    · obtain ⟨p, q, hq⟩ := ih hs
      exact ⟨c :: p, q, by rw [hq]; rfl⟩

theorem length_le_of_hasSub {n h : List Char} (hs : hasSub n h = true) :
    n.length ≤ h.length := by
  obtain ⟨p, q, rfl⟩ := hasSub_exists hs
  simp only [List.length_append]
  omega

theorem eq_of_hasSub_of_length {n h : List Char} (hs : hasSub n h = true)
    (hl : n.length = h.length) : n = h := by
  obtain ⟨p, q, rfl⟩ := hasSub_exists hs
  simp only [List.length_append] at hl
  have hp : p = [] := List.length_eq_zero.mp (by omega)
  have hq : q = [] := List.length_eq_zero.mp (by omega)
  subst hp; subst hq
  simp

theorem shorterOf_length_le (s1 s2 : List Char) :
    (shorterOf s1 s2).length ≤ (longerOf s1 s2).length := by
  unfold shorterOf longerOf
  split_ifs with h <;> omega

theorem longerOf_length (s1 s2 : List Char) :
    (longerOf s1 s2).length = max s1.length s2.length := by
  unfold longerOf
  split_ifs with h
  · exact (max_eq_left h.le).symm
  · exact (max_eq_right (not_lt.mp h)).symm

theorem jsLevCost_le (s1 s2 : List Char) : jsLevCost s1 s2 ≤ (longerOf s1 s2).length := by
  rw [jsLevCost_eq, longerOf_length]
  have := levRec_le_max s1.reverse s2.reverse
  simpa using this

/-! ## Range of the fuzzy scorer -/

theorem fuzzyCore_nonneg (s1 s2 : List Char) : 0 ≤ fuzzyCore s1 s2 := by
  unfold fuzzyCore
  split_ifs with h0 hc
  · norm_num
  · positivity
  · have hd := jsLevCost_le s1 s2
    apply div_nonneg _ (by positivity)
    have : (jsLevCost s1 s2 : ℚ) ≤ ((longerOf s1 s2).length : ℚ) := by exact_mod_cast hd
    linarith

theorem fuzzyCore_le_one (s1 s2 : List Char) : fuzzyCore s1 s2 ≤ 1 := by
  unfold fuzzyCore
  split_ifs with h0 hc
  · norm_num
  · have hl := shorterOf_length_le s1 s2
    have hpos : (0 : ℚ) < ((longerOf s1 s2).length : ℚ) := by
      have : 0 < (longerOf s1 s2).length := Nat.pos_of_ne_zero h0
      exact_mod_cast this
    rw [div_le_one hpos]
    exact_mod_cast hl
  · have hpos : (0 : ℚ) < ((longerOf s1 s2).length : ℚ) := by
      have : 0 < (longerOf s1 s2).length := Nat.pos_of_ne_zero h0
      exact_mod_cast this
    rw [div_le_one hpos]
    have : (0 : ℚ) ≤ (jsLevCost s1 s2 : ℚ) := by positivity
    linarith

theorem fuzzy_nonneg (a b : String) : 0 ≤ fuzzyMatchScore a b := by
  unfold fuzzyMatchScore
  split_ifs with h0 h1
  · norm_num
  · norm_num
  · exact fuzzyCore_nonneg _ _

theorem fuzzy_le_one (a b : String) : fuzzyMatchScore a b ≤ 1 := by
  unfold fuzzyMatchScore
  split_ifs with h0 h1
  · norm_num
  · norm_num
  · exact fuzzyCore_le_one _ _

/-! ## Symmetry of the fuzzy scorer -/

theorem jsLevCost_comm (s1 s2 : List Char) : jsLevCost s1 s2 = jsLevCost s2 s1 := by
  rw [jsLevCost_eq, jsLevCost_eq, levRec_comm]

theorem fuzzyCore_comm {s1 s2 : List Char} (hne : s1 ≠ s2) :
    fuzzyCore s1 s2 = fuzzyCore s2 s1 := by
  rcases lt_trichotomy s2.length s1.length with h | h | h
  · have h1 : longerOf s1 s2 = s1 := if_pos h
    have h2 : shorterOf s1 s2 = s2 := if_pos h
    have h3 : longerOf s2 s1 = s1 := if_neg (by omega)
    have h4 : shorterOf s2 s1 = s2 := if_neg (by omega)
    unfold fuzzyCore
    rw [h1, h2, h3, h4, jsLevCost_comm]
  · have h1 : longerOf s1 s2 = s2 := if_neg (by omega)
    have h2 : shorterOf s1 s2 = s1 := if_neg (by omega)
    have h3 : longerOf s2 s1 = s1 := if_neg (by omega)
    have h4 : shorterOf s2 s1 = s2 := if_neg (by omega)
    unfold fuzzyCore
    rw [h1, h2, h3, h4, jsLevCost_comm]
    by_cases hz : s2.length = 0
    · have hz1 : s1.length = 0 := by omega
      rw [if_pos hz, if_pos hz1]
    · have hz1 : ¬s1.length = 0 := by omega
      have hc1 : hasSub s1 s2 = false := by
        cases hcc : hasSub s1 s2
        · rfl
        · exact absurd (eq_of_hasSub_of_length hcc (by omega)) hne
      have hc2 : hasSub s2 s1 = false := by
        cases hcc : hasSub s2 s1
        · rfl
        · exact absurd (eq_of_hasSub_of_length hcc (by omega)) (fun hh => hne hh.symm)
      rw [if_neg hz, if_neg hz1]
      simp only [hc1, hc2, Bool.false_eq_true, if_false]
      rw [h]
  · have h1 : longerOf s1 s2 = s2 := if_neg (by omega)
    have h2 : shorterOf s1 s2 = s1 := if_neg (by omega)
    have h3 : longerOf s2 s1 = s2 := if_pos h
    have h4 : shorterOf s2 s1 = s1 := if_pos h
    unfold fuzzyCore
    rw [h1, h2, h3, h4, jsLevCost_comm]

theorem rank_acme_eval :
    getSalesforceMetadataByAddress acmeParams [acmeRecord] = [acmeMatch] := by
  simp only [getSalesforceMetadataByAddress,
    show normalizeAddress acmeParams.street = "456 oak ave" by decide,
    show targetNameOf acmeParams = "acme" by decide,
    List.filterMap_cons, List.filterMap_nil, scoreRecord_acme]
  simp [List.insertionSort, List.orderedInsert]

/-! ## Claim theorems: concrete examples and the scorer contract -/

/-- **C1**: for the query `{targetStoreName: "Acme", targetStreet: "456 Oak Avenue"}`
against the single candidate `{name: "Acme Storage - 456 Oak Ave", shippingAddress: null}`,
the ranker produces a match with `addressScore = 1` (both streets normalize to
`"456 oak ave"`) and `combinedScore ≥ 0.6`. -/
theorem C1_ranker_example :
    normalizeAddress "456 Oak Avenue" = "456 oak ave" ∧
    normalizeAddress "456 Oak Ave" = "456 oak ave" ∧
    ∃ m ∈ getSalesforceMetadataByAddress acmeParams [acmeRecord],
      m.addressScore = 1 ∧ 3 / 5 ≤ m.combinedScore := by
  refine ⟨by decide, by decide, acmeMatch, ?_, rfl, ?_⟩
  · rw [rank_acme_eval]
    exact List.mem_singleton_self _
  · show (3 : ℚ) / 5 ≤ acmeMatch.combinedScore
    norm_num [acmeMatch]

/-- **C7**: the fuzzy string scorer is symmetric (exactly, in the rational
model of JavaScript numbers): `similarity(a, b) = similarity(b, a)`. -/
theorem C7_similarity_symmetric : ∀ a b : String, fuzzyMatchScore a b = fuzzyMatchScore b a := by
  intro a b
  unfold fuzzyMatchScore
  by_cases h0 : a = "" ∨ b = ""
  · rw [if_pos h0, if_pos (Or.symm h0)]
  · rw [if_neg h0, if_neg (fun hh => h0 (Or.symm hh))]
    by_cases h1 : ltL a = ltL b
    · rw [if_pos h1, if_pos h1.symm]
    · rw [if_neg h1, if_neg (fun hh => h1 hh.symm)]
      exact fuzzyCore_comm h1

theorem longerOf_length_ne_zero {u v : List Char} (h : u ≠ v) :
    (longerOf u v).length ≠ 0 := by
  rw [longerOf_length]
  intro hc
  rw [Nat.max_eq_zero_iff] at hc
  exact h ((List.length_eq_zero.mp hc.1).trans (List.length_eq_zero.mp hc.2).symm)

/-- **C8**: `similarity` always lies in `[0, 1]`, and follows the four-case
contract: `0` on an empty input, `1` on identical lowercased-trimmed strings,
`len(shorter)/len(longer)` on containment, and
`1 - levenshtein(a, b) / max(len a, len b)` otherwise. -/
theorem C8_similarity_range : ∀ a b : String,
    0 ≤ fuzzyMatchScore a b ∧ fuzzyMatchScore a b ≤ 1 ∧
    ((a = "" ∨ b = "") → fuzzyMatchScore a b = 0) ∧
    (¬(a = "" ∨ b = "") → ltL a = ltL b → fuzzyMatchScore a b = 1) ∧
    (¬(a = "" ∨ b = "") → ltL a ≠ ltL b →
      hasSub (shorterOf (ltL a) (ltL b)) (longerOf (ltL a) (ltL b)) = true →
      fuzzyMatchScore a b =
        ((shorterOf (ltL a) (ltL b)).length : ℚ) / ((longerOf (ltL a) (ltL b)).length : ℚ)) ∧
    (¬(a = "" ∨ b = "") → ltL a ≠ ltL b →
      hasSub (shorterOf (ltL a) (ltL b)) (longerOf (ltL a) (ltL b)) = false →
      fuzzyMatchScore a b =
        1 - (levRec (ltL a) (ltL b) : ℚ) / ((max (ltL a).length (ltL b).length : ℕ) : ℚ)) := by
  intro a b
  refine ⟨fuzzy_nonneg a b, fuzzy_le_one a b, fun h => fuzzy_eq_zero h,
    fun h0 h1 => fuzzy_eq_one h0 h1, ?_, ?_⟩
  · intro h0 h1 hc
    rw [fuzzy_eq_core h0 h1, fuzzyCore_contain (longerOf_length_ne_zero h1) hc]
  · intro h0 h1 hc
    have hz := longerOf_length_ne_zero h1
    rw [fuzzy_eq_core h0 h1, fuzzyCore_edit hz hc]
    rw [jsLevCost_eq, levRec_rev, ← longerOf_length]
    have hpos : (0 : ℚ) < ((longerOf (ltL a) (ltL b)).length : ℚ) := by
      exact_mod_cast Nat.pos_of_ne_zero hz
    field_simp

/-- Witness for C8 at `("acme", "acme storage")`: the containment case. -/
theorem C8_similarity_range_witness :
    fuzzyMatchScore "acme" "acme storage" =
      ((shorterOf (ltL "acme") (ltL "acme storage")).length : ℚ) /
        ((longerOf (ltL "acme") (ltL "acme storage")).length : ℚ) :=
  (C8_similarity_range "acme" "acme storage").2.2.2.2.1 (by decide) (by decide) (by decide)


/-- The single-quote character, written by code point to keep string literals
free of quote-nesting. -/
def sqCh : Char := Char.ofNat 39

/-- The loose-dialect `shippingAddress` text of the extractor example:
a brace-delimited, single-quoted mapping of `street` and `city`. -/
def pyDictSample : String :=
  ⟨[Char.ofNat 123] ++ [sqCh] ++ "street".data ++ [sqCh] ++ ": ".data ++ [sqCh] ++
   "789 Pine Rd".data ++ [sqCh] ++ ", ".data ++ [sqCh] ++ "city".data ++ [sqCh] ++ ": ".data ++
   [sqCh] ++ "Metro".data ++ [sqCh] ++ [Char.ofNat 125]⟩

/-- **C9**: the extractor on
`{name: "X", shippingAddress: "{'street': '789 Pine Rd', 'city': 'Metro'}"}`
parses the single-quoted loose-dialect text (strict JSON parse fails, the
Python-dialect substitution then succeeds) and yields brand `"X"` with street
`"789 Pine Rd"`. -/
theorem C9_loose_dialect_extraction :
    (jsonParse pyDictSample.data).isNone = true ∧
    sfStoreBrand "X" = "X" ∧
    extractStreet ⟨some "X", none, none, some pyDictSample⟩ = some "789 Pine Rd" :=
  ⟨by decide, by decide, by decide⟩

/-- **C5**: `yearBuilt` is reported only when the raw field parses as an
integer in `[1900, 2030]`, `squareFootage` only when it parses as a strictly
positive number; failing values are reported as absent while the match itself
stays valid (`matched = true`); `"1850"` becomes absent and `"2005"` is kept. -/
theorem C5_numeric_sanitization :
    (∀ (raw : Option String) (n : Int), sanitizeYearBuilt raw = some n →
      ∃ s, raw = some s ∧ s ≠ "" ∧ jsParseInt10 s = some n ∧ 1900 ≤ n ∧ n ≤ 2030) ∧
    (∀ (raw : Option String) (q : ℚ), sanitizeSquareFootage raw = some q →
      ∃ s, raw = some s ∧ s ≠ "" ∧ jsParseFloat s = some q ∧ 0 < q) ∧
    (∀ record : ScoredMatch, (salesforceMetadataOfRecord record).matched = true) ∧
    sanitizeYearBuilt (some "1850") = none ∧
    sanitizeYearBuilt (some "2005") = some 2005 := by
  refine ⟨?_, ?_, fun _ => rfl, by decide, by decide⟩
  · intro raw n h
    cases raw with
    | none => simp [sanitizeYearBuilt] at h
    | some s =>
      simp only [sanitizeYearBuilt] at h
      split_ifs at h with he
      cases hp : jsParseInt10 s with
      | none => simp only [hp] at h; exact Option.noConfusion h
      | some m =>
        simp only [hp] at h
        split_ifs at h with hr
        exact ⟨s, rfl, he, by rw [hp, Option.some.inj h], by
          rw [← Option.some.inj h]; exact hr.1, by rw [← Option.some.inj h]; exact hr.2⟩
  · intro raw q h
    cases raw with
    | none => simp [sanitizeSquareFootage] at h
    | some s =>
      simp only [sanitizeSquareFootage] at h
      split_ifs at h with he
      cases hp : jsParseFloat s with
      | none => simp only [hp] at h; exact Option.noConfusion h
      | some m =>
        simp only [hp] at h
        split_ifs at h with hr
        exact ⟨s, rfl, he, by rw [hp, Option.some.inj h],
          by rw [← Option.some.inj h]; exact hr⟩

theorem jsParseFloat_35000 : jsParseFloat "35000" = some 35000 := by
  simp [jsParseFloat, isJsWs, digitsPrefix, digitsToNat, List.dropWhile, List.takeWhile]

theorem sanitizeSquareFootage_35000 : sanitizeSquareFootage (some "35000") = some 35000 := by
  have h1 : ¬("35000" = "") := by decide
  simp only [sanitizeSquareFootage, if_neg h1, jsParseFloat_35000]
  norm_num

/-- Witness for C5 at `"2005"` (year) and `"35000"` (square footage). -/
theorem C5_numeric_sanitization_witness :
    (∃ s, (some "2005" : Option String) = some s ∧ s ≠ "" ∧ jsParseInt10 s = some 2005 ∧
      1900 ≤ (2005 : Int) ∧ (2005 : Int) ≤ 2030) ∧
    ∃ s, (some "35000" : Option String) = some s ∧ s ≠ "" ∧ jsParseFloat s = some 35000 ∧
      (0 : ℚ) < 35000 :=
  ⟨C5_numeric_sanitization.1 (some "2005") 2005 (by decide),
   C5_numeric_sanitization.2.1 (some "35000") 35000 sanitizeSquareFootage_35000⟩

/-! ## Destructuring ranker membership (for the filter and invariant claims) -/

theorem exists_scoreRecord_of_mem_rank {params : AddressParams} {records : List SfRecord}
    {m : ScoredMatch} (hm : m ∈ getSalesforceMetadataByAddress params records) :
    ∃ r ∈ records,
      scoreRecord (targetNameOf params) (normalizeAddress params.street) r = some m := by
  unfold getSalesforceMetadataByAddress at hm
  have h1 : m ∈ List.insertionSort rankRel
      (records.filterMap (scoreRecord (targetNameOf params) (normalizeAddress params.street))) :=
    List.take_subset 10 _ hm
  have h2 := (List.perm_insertionSort rankRel _).subset h1
  exact List.mem_filterMap.mp h2

theorem scoreRecord_some_inv {tn ts : String} {r : SfRecord} {m : ScoredMatch}
    (h : scoreRecord tn ts r = some m) :
    m.combinedScore = m.nameScore * (4 / 10) + m.addressScore * (6 / 10) ∧
    (m.combinedScore > 3 / 10 ∨ m.addressScore > 1 / 2) ∧
    m.nameScore = max (fuzzyMatchScore tn ⟨lowerL m.Name.data⟩)
      (fuzzyMatchScore tn ⟨lowerL m.parsedStoreName.data⟩) ∧
    m.addressScore = fuzzyMatchScore ts (normalizeAddress m.parsedAddress) := by
  cases hex : extractStreet r with
  | none => simp only [scoreRecord, hex] at h; exact Option.noConfusion h
  | some street =>
    simp only [scoreRecord, hex] at h
    split_ifs at h with hc
    obtain rfl := (Option.some.inj h).symm
    exact ⟨rfl, hc, rfl, rfl⟩

/-- **C3**: every match the ranker returns passed the inclusion filter:
`combinedScore > 0.3` or `addressScore > 0.5`; equivalently, a candidate with
`combinedScore ≤ 0.3` and `addressScore ≤ 0.5` never appears in the output. -/
theorem C3_inclusion_filter : ∀ (params : AddressParams) (records : List SfRecord)
    (m : ScoredMatch), m ∈ getSalesforceMetadataByAddress params records →
    m.combinedScore > 3 / 10 ∨ m.addressScore > 1 / 2 := by
  intro params records m hm
  obtain ⟨r, _, hsr⟩ := exists_scoreRecord_of_mem_rank hm
  exact (scoreRecord_some_inv hsr).2.1

/-- Witness for C3: the match of the concrete ranker example. -/
theorem C3_inclusion_filter_witness :
    acmeMatch.combinedScore > 3 / 10 ∨ acmeMatch.addressScore > 1 / 2 :=
  C3_inclusion_filter acmeParams [acmeRecord] acmeMatch
    (by rw [rank_acme_eval]; exact List.mem_singleton_self _)

/-- **C10**: every returned match satisfies
`combinedScore = 0.4 * nameScore + 0.6 * addressScore`, with
`nameScore = max(similarity(query, full name), similarity(query, brand))` and
both `nameScore` and `addressScore` in `[0, 1]`. -/
theorem C10_combined_score_invariant : ∀ (params : AddressParams) (records : List SfRecord)
    (m : ScoredMatch), m ∈ getSalesforceMetadataByAddress params records →
    m.combinedScore = 4 / 10 * m.nameScore + 6 / 10 * m.addressScore ∧
    m.nameScore = max (fuzzyMatchScore (targetNameOf params) ⟨lowerL m.Name.data⟩)
      (fuzzyMatchScore (targetNameOf params) ⟨lowerL m.parsedStoreName.data⟩) ∧
    m.addressScore =
      fuzzyMatchScore (normalizeAddress params.street) (normalizeAddress m.parsedAddress) ∧
    0 ≤ m.nameScore ∧ m.nameScore ≤ 1 ∧ 0 ≤ m.addressScore ∧ m.addressScore ≤ 1 := by
  intro params records m hm
  obtain ⟨r, _, hsr⟩ := exists_scoreRecord_of_mem_rank hm
  obtain ⟨hcomb, _, hname, haddr⟩ := scoreRecord_some_inv hsr
  refine ⟨by rw [hcomb]; ring, hname, haddr, ?_, ?_, ?_, ?_⟩
  · rw [hname]; exact le_max_of_le_left (fuzzy_nonneg _ _)
  · rw [hname]; exact max_le (fuzzy_le_one _ _) (fuzzy_le_one _ _)
  · rw [haddr]; exact fuzzy_nonneg _ _
  · rw [haddr]; exact fuzzy_le_one _ _

/-- Witness for C10: the invariant holds at the concrete ranker example. -/
theorem C10_combined_score_invariant_witness :
    acmeMatch.combinedScore = 4 / 10 * acmeMatch.nameScore + 6 / 10 * acmeMatch.addressScore ∧
    acmeMatch.nameScore =
      max (fuzzyMatchScore (targetNameOf acmeParams) ⟨lowerL acmeMatch.Name.data⟩)
        (fuzzyMatchScore (targetNameOf acmeParams) ⟨lowerL acmeMatch.parsedStoreName.data⟩) ∧
    acmeMatch.addressScore = fuzzyMatchScore (normalizeAddress acmeParams.street)
      (normalizeAddress acmeMatch.parsedAddress) ∧
    0 ≤ acmeMatch.nameScore ∧ acmeMatch.nameScore ≤ 1 ∧
    0 ≤ acmeMatch.addressScore ∧ acmeMatch.addressScore ≤ 1 :=
  C10_combined_score_invariant acmeParams [acmeRecord] acmeMatch
    (by rw [rank_acme_eval]; exact List.mem_singleton_self _)

/-- The extractor example record of C4: `' - '` present but the part after it
has no digit and no street-suffix token. -/
def downtownRecord : SfRecord := ⟨some "Acme Storage - Downtown", none, none, none⟩

/-- **C4**: a candidate whose `shippingAddress` yields no non-empty street and
whose name-based fallback fails is excluded from the ranker entirely (deleting
it from the candidate list leaves the output unchanged); in particular the
extractor yields absent on `{name: "Acme Storage - Downtown", shippingAddress: null}`. -/
theorem C4_unextractable_excluded :
    (∀ r : SfRecord, shippingStreet r.ShippingAddress = none →
      nameStreet (r.Name.getD "") = none →
      ∀ (params : AddressParams) (cs1 cs2 : List SfRecord),
        getSalesforceMetadataByAddress params (cs1 ++ r :: cs2) =
          getSalesforceMetadataByAddress params (cs1 ++ cs2)) ∧
    extractStreet downtownRecord = none := by
  refine ⟨?_, by decide⟩
  intro r h1 h2 params cs1 cs2
  have hex : extractStreet r = none := by
    simp only [extractStreet, h1, h2]
  have hsc : scoreRecord (targetNameOf params) (normalizeAddress params.street) r = none := by
    simp only [scoreRecord, hex]
  simp only [getSalesforceMetadataByAddress, List.filterMap_append, List.filterMap_cons, hsc]

/-- Witness for C4: deleting the `Downtown` record from a singleton candidate
list leaves the (empty) output unchanged. -/
theorem C4_unextractable_excluded_witness :
    getSalesforceMetadataByAddress acmeParams ([] ++ downtownRecord :: []) =
      getSalesforceMetadataByAddress acmeParams ([] ++ []) :=
  C4_unextractable_excluded.1 downtownRecord (by decide) (by decide) acmeParams [] []

/-! ## C2: output size, descending sort, stability -/

instance : IsTotal ScoredMatch rankRel :=
  ⟨fun a b => le_total b.combinedScore a.combinedScore⟩

instance : IsTrans ScoredMatch rankRel :=
  ⟨fun _ _ _ hab hbc => le_trans hbc hab⟩

/-- Strict descending-score order refined by input position: the shape of a
stable descending sort of index-tagged matches. -/
def rankLex (a b : Nat × ScoredMatch) : Prop :=
  b.2.combinedScore < a.2.combinedScore ∨
    (a.2.combinedScore = b.2.combinedScore ∧ a.1 < b.1)

theorem rankLex_comb_le {a b : Nat × ScoredMatch} (h : rankLex a b) :
    b.2.combinedScore ≤ a.2.combinedScore := by
  rcases h with h | h
  · exact le_of_lt h
  · exact le_of_eq h.1.symm

theorem orderedInsert_lex (x : Nat × ScoredMatch) :
    ∀ l : List (Nat × ScoredMatch), l.Pairwise rankLex → (∀ z ∈ l, x.1 < z.1) →
      (List.orderedInsert rankRelIdx x l).Pairwise rankLex := by
  intro l
  induction l with
  | nil => intro _ _; simp [List.orderedInsert]
  | cons y ys ih =>
    intro hl hidx
    rw [List.orderedInsert]
    by_cases hxy : rankRelIdx x y
    · rw [if_pos hxy]
      refine List.pairwise_cons.mpr ⟨?_, hl⟩
      intro z hz
      rcases List.mem_cons.mp hz with rfl | hz'
      · rcases lt_or_eq_of_le hxy with hlt | heq
        · exact Or.inl hlt
        · exact Or.inr ⟨heq.symm, hidx z (by simp)⟩
      · have hyz : rankLex y z := (List.pairwise_cons.mp hl).1 z hz'
        have h1 : z.2.combinedScore ≤ y.2.combinedScore := rankLex_comb_le hyz
        have h2 : y.2.combinedScore ≤ x.2.combinedScore := hxy
        rcases lt_or_eq_of_le (le_trans h1 h2) with hlt | heq
        · exact Or.inl hlt
        · exact Or.inr ⟨heq.symm, hidx z (by simp [hz'])⟩
    · rw [if_neg hxy]
      have hyx : x.2.combinedScore < y.2.combinedScore := not_le.mp hxy
      obtain ⟨hy, hys⟩ := List.pairwise_cons.mp hl
      refine List.pairwise_cons.mpr ⟨?_, ih hys (fun z hz => hidx z (by simp [hz]))⟩
      intro z hz
      rcases (List.mem_orderedInsert rankRelIdx).mp hz with rfl | hz'
      · exact Or.inl hyx
      · exact hy z hz'

/-- Stability of the stable sort on index-tagged matches: sorting a list whose
indices strictly increase produces a list pairwise ordered by score descending
with ties in index order. -/
theorem insertionSort_lex :
    ∀ l : List (Nat × ScoredMatch), l.Pairwise (fun a b => a.1 < b.1) →
      (List.insertionSort rankRelIdx l).Pairwise rankLex := by
  intro l
  induction l with
  | nil => intro _; simp [List.insertionSort]
  | cons x l ih =>
    intro hp
    obtain ⟨hx, hl⟩ := List.pairwise_cons.mp hp
    rw [List.insertionSort]
    refine orderedInsert_lex x _ (ih hl) ?_
    intro z hz
    exact hx z ((List.perm_insertionSort rankRelIdx l).subset hz)

theorem mem_enumFrom_le {α : Type} (l : List α) :
    ∀ (n : ℕ) (z : ℕ × α), z ∈ List.enumFrom n l → n ≤ z.1 := by
  induction l with
  | nil => intro n z hz; simp [List.enumFrom] at hz
  | cons x l ih =>
    intro n z hz
    rw [List.enumFrom] at hz
    rcases List.mem_cons.mp hz with rfl | hz'
    · exact le_rfl
    · exact le_trans (Nat.le_succ n) (ih (n + 1) z hz')

theorem pairwise_enumFrom_lt {α : Type} (l : List α) :
    ∀ n : ℕ, (List.enumFrom n l).Pairwise (fun a b => a.1 < b.1) := by
  induction l with
  | nil => intro n; simp [List.enumFrom]
  | cons x l ih =>
    intro n
    rw [List.enumFrom]
    refine List.pairwise_cons.mpr ⟨?_, ih (n + 1)⟩
    intro z hz
    exact lt_of_lt_of_le (Nat.lt_succ_self n) (mem_enumFrom_le l (n + 1) z hz)

theorem scoreRecordIdx_fst {tn ts : String} {p : Nat × SfRecord} {b : Nat × ScoredMatch}
    (hb : scoreRecordIdx tn ts p = some b) : b.1 = p.1 := by
  unfold scoreRecordIdx at hb
  cases hsc : scoreRecord tn ts p.2 with
  | none => rw [hsc] at hb; exact Option.noConfusion hb
  | some m =>
    rw [hsc] at hb
    obtain rfl := Option.some.inj hb
    rfl

/-- The index-tagged scored list inherits strictly increasing indices. -/
theorem scored_idx_pairwise (tn ts : String) (records : List SfRecord) :
    ((records.enum).filterMap (scoreRecordIdx tn ts)).Pairwise (fun a b => a.1 < b.1) := by
  refine List.Pairwise.filterMap (scoreRecordIdx tn ts) ?_ (pairwise_enumFrom_lt records 0)
  intro p p' hpp b hb b' hb'
  rw [Option.mem_def] at hb hb'
  rw [scoreRecordIdx_fst hb, scoreRecordIdx_fst hb']
  exact hpp

theorem scored_map_snd (tn ts : String) (records : List SfRecord) :
    ∀ n : ℕ, ((List.enumFrom n records).filterMap (scoreRecordIdx tn ts)).map (·.2) =
      records.filterMap (scoreRecord tn ts) := by
  induction records with
  | nil => intro n; rfl
  | cons r rs ih =>
    intro n
    rw [List.enumFrom, List.filterMap_cons, List.filterMap_cons]
    cases hsc : scoreRecord tn ts r with
    | none =>
      rw [show scoreRecordIdx tn ts (n, r) = none by unfold scoreRecordIdx; rw [hsc]; rfl]
      exact ih (n + 1)
    | some m =>
      rw [show scoreRecordIdx tn ts (n, r) = some (n, m) by
        unfold scoreRecordIdx; rw [hsc]; rfl]
      rw [List.map_cons, ih (n + 1)]

/-- **C2**: for every query and candidate list the ranker returns at most 10
entries, sorted by `combinedScore` descending; the sort is stable: the
index-tagged run of the same pipeline is pairwise ordered by score descending
with ties kept in input order, and projects onto the ranker's output. -/
theorem C2_top10_sorted_stable : ∀ (params : AddressParams) (records : List SfRecord),
    (getSalesforceMetadataByAddress params records).length ≤ 10 ∧
    List.Sorted rankRel (getSalesforceMetadataByAddress params records) ∧
    (rankIndexed params records).Pairwise rankLex ∧
    getSalesforceMetadataByAddress params records = (rankIndexed params records).map (·.2) := by
  intro params records
  refine ⟨?_, ?_, ?_, ?_⟩
  · simp only [getSalesforceMetadataByAddress]
    rw [List.length_take]
    exact min_le_left _ _
  · simp only [getSalesforceMetadataByAddress]
    exact (List.sorted_insertionSort rankRel _).sublist (List.take_sublist 10 _)
  · simp only [rankIndexed]
    exact (insertionSort_lex _ (scored_idx_pairwise _ _ records)).sublist
      (List.take_sublist 10 _)
  · simp only [getSalesforceMetadataByAddress, rankIndexed]
    rw [List.map_take]
    congr 1
    rw [List.map_insertionSort rankRelIdx rankRel (·.2) _ (fun a _ b _ => Iff.rfl)]
    rw [show (List.enum records) = List.enumFrom 0 records from rfl, scored_map_snd]

/-! ## C6: idempotence analysis of the address normalizer -/

theorem toNat_ofNat_valid {n : Nat} (h : n.isValidChar) : (Char.ofNat n).toNat = n := by
  unfold Char.ofNat
  rw [dif_pos h]
  rfl

theorem toLowerCh_idem (c : Char) : toLowerCh (toLowerCh c) = toLowerCh c := by
  unfold toLowerCh
  by_cases h : 'A' ≤ c ∧ c ≤ 'Z'
  · rw [if_pos h]
    have h65 : 65 ≤ c.toNat := h.1
    have h90 : c.toNat ≤ 90 := h.2
    have hvalid : (c.toNat + 32).isValidChar := Or.inl (by omega)
    have htn : (Char.ofNat (c.toNat + 32)).toNat = c.toNat + 32 := toNat_ofNat_valid hvalid
    rw [if_neg]
    intro hcon
    have hx : (Char.ofNat (c.toNat + 32)).toNat ≤ 90 := hcon.2
    omega
  · rw [if_neg h, if_neg h]

theorem map_id_of_fixed {f : Char → Char} :
    ∀ l : List Char, (∀ c ∈ l, f c = c) → l.map f = l := by
  intro l
  induction l with
  | nil => intro _; rfl
  | cons c cs ih =>
    intro h
    rw [List.map_cons, h c (by simp), ih (fun d hd => h d (by simp [hd]))]

theorem mem_trimL {l : List Char} {c : Char} (h : c ∈ trimL l) : c ∈ l := by
  unfold trimL at h
  rw [List.mem_reverse] at h
  have h1 := (List.dropWhile_sublist isJsWs).subset h
  rw [List.mem_reverse] at h1
  exact (List.dropWhile_sublist isJsWs).subset h1

theorem mem_collapseAux :
    ∀ (b : Bool) (l : List Char) (c : Char), c ∈ collapseAux b l →
      c = ' ' ∨ (c ∈ l ∧ isJsWs c = false) := by
  intro b l
  induction l generalizing b with
  | nil => intro c hc; simp [collapseAux] at hc
  | cons x xs ih =>
    intro c hc
    rw [collapseAux] at hc
    by_cases hx : isJsWs x
    · rw [if_pos hx] at hc
      by_cases hb : b
      · subst hb
        rw [if_pos rfl] at hc
        rcases ih true c hc with h | h
        · exact Or.inl h
        · exact Or.inr ⟨by simp [h.1], h.2⟩
      · rw [if_neg hb] at hc
        rcases List.mem_cons.mp hc with rfl | hc'
        · exact Or.inl rfl
        · rcases ih true c hc' with h | h
          · exact Or.inl h
          · exact Or.inr ⟨by simp [h.1], h.2⟩
    · rw [if_neg hx] at hc
      rcases List.mem_cons.mp hc with rfl | hc'
      · exact Or.inr ⟨by simp, by simpa using hx⟩
      · rcases ih false c hc' with h | h
        · exact Or.inl h
        · exact Or.inr ⟨by simp [h.1], h.2⟩

/-- The word/non-word class of a run (head character decides). -/
def classOf (r : List Char) : Bool :=
  match r with
  | [] => false
  | c :: _ => isWordChar c

/-- A run: nonempty and homogeneous in word class. -/
def HomRun (r : List Char) : Prop := r ≠ [] ∧ ∀ c ∈ r, isWordChar c = classOf r

/-- A valid run decomposition: homogeneous nonempty runs with alternating
classes. -/
def ValidRuns (rs : List (List Char)) : Prop :=
  (∀ r ∈ rs, HomRun r) ∧ rs.Chain' (fun a b => classOf a ≠ classOf b)

theorem flatten_splitRuns : ∀ l : List Char, (splitRuns l).flatten = l := by
  intro l
  induction l with
  | nil => rfl
  | cons c cs ih =>
    simp only [splitRuns]
    cases hs : splitRuns cs with
    | nil =>
      rw [hs] at ih
      simp only [List.flatten_nil] at ih
      simp [splitRunsStep, ← ih]
    | cons r rs =>
      rw [hs] at ih
      cases r with
      | nil =>
        simp only [List.flatten_cons, List.nil_append] at ih
        simp [splitRunsStep, ih]
      | cons d r' =>
        by_cases hcd : isWordChar c == isWordChar d
        · simp only [splitRunsStep, if_pos hcd]
          simp only [List.flatten_cons] at ih ⊢
          simp [ih]
        · simp only [splitRunsStep, if_neg hcd]
          simp only [List.flatten_cons] at ih ⊢
          simp [ih]

theorem valid_splitRuns : ∀ l : List Char, ValidRuns (splitRuns l) := by
  intro l
  induction l with
  | nil => exact ⟨by simp [splitRuns], by simp [splitRuns]⟩
  | cons c cs ih =>
    simp only [splitRuns]
    obtain ⟨hhom, hchain⟩ := ih
    cases hs : splitRuns cs with
    | nil =>
      refine ⟨?_, by simp [splitRunsStep]⟩
      intro r hr
      simp only [splitRunsStep, List.mem_singleton] at hr
      subst hr
      exact ⟨by simp, by intro e he; simp at he; subst he; rfl⟩
    | cons r rs =>
      rw [hs] at hhom hchain
      cases r with
      | nil => exact absurd rfl (hhom [] (by simp)).1
      | cons d r' =>
        by_cases hcd : (isWordChar c == isWordChar d) = true
        · simp only [splitRunsStep, if_pos hcd]
          have hcd' : isWordChar c = isWordChar d := eq_of_beq hcd
          constructor
          · intro r hr
            rcases List.mem_cons.mp hr with rfl | hr'
            · have hdr := hhom (d :: r') (by simp)
              refine ⟨by simp, ?_⟩
              intro e he
              rcases List.mem_cons.mp he with rfl | he'
              · rfl
              · rw [hdr.2 e he']
                exact hcd'.symm
            · exact hhom r (by simp [hr'])
          · cases rs with
            | nil => simp
            | cons r2 rs2 =>
              rw [List.chain'_cons] at hchain
              refine List.chain'_cons.mpr ⟨?_, hchain.2⟩
              show classOf (c :: d :: r') ≠ classOf r2
              have h1 : classOf (c :: d :: r') = classOf (d :: r') := hcd'
              rw [h1]
              exact hchain.1
        · simp only [splitRunsStep, if_neg hcd]
          have hcd' : isWordChar c ≠ isWordChar d := fun h => hcd (beq_iff_eq.mpr h)
          constructor
          · intro r hr
            rcases List.mem_cons.mp hr with rfl | hr'
            · exact ⟨by simp, by intro e he; simp at he; subst he; rfl⟩
            · exact hhom r (by simp [hr'])
          · exact List.chain'_cons'.mpr ⟨by intro b hb; simp at hb; subst hb; exact hcd', hchain⟩

theorem splitRuns_head_eq (l : List Char) : ∀ r rs, splitRuns l = r :: rs →
    r.head? = l.head? := by
  intro r rs h
  have hf := flatten_splitRuns l
  rw [h] at hf
  have hr : r ≠ [] := ((valid_splitRuns l).1 r (by rw [h]; simp)).1
  cases r with
  | nil => exact absurd rfl hr
  | cons a r' => rw [← hf]; rfl

theorem head?_flatten_cons {r : List Char} {rs : List (List Char)} (hr : r ≠ []) :
    (List.flatten (r :: rs)).head? = r.head? := by
  cases r with
  | nil => exact absurd rfl hr
  | cons a r' => rfl

theorem splitRuns_run_append :
    ∀ r : List Char, r ≠ [] → (∀ c ∈ r, isWordChar c = classOf r) →
    ∀ t : List Char, (t = [] ∨ ∀ c, t.head? = some c → isWordChar c ≠ classOf r) →
    splitRuns (r ++ t) = r :: splitRuns t := by
  intro r
  induction r with
  | nil => intro hne; exact absurd rfl hne
  | cons a r' ih =>
    intro _ hhom t ht
    cases r' with
    | nil =>
      have hgoal : splitRuns ([a] ++ t) = splitRunsStep a (splitRuns t) := rfl
      rw [hgoal]
      cases hst : splitRuns t with
      | nil => rfl
      | cons r2 rs2 =>
        cases r2 with
        | nil => exact absurd rfl (((valid_splitRuns t).1 [] (by rw [hst]; simp)).1)
        | cons d r2' =>
          have hd : (d :: r2').head? = t.head? := splitRuns_head_eq t _ _ hst
          have ht' : isWordChar d ≠ isWordChar a := by
            rcases ht with rfl | ht2
            · simp [splitRuns] at hst
            · exact ht2 d hd.symm
          simp only [splitRunsStep]
          rw [if_neg (fun hb => ht' (eq_of_beq hb).symm)]
    | cons b r'' =>
      have hab : isWordChar a = isWordChar b := by
        rw [hhom a (by simp), hhom b (by simp)]
      have hcls : classOf (b :: r'') = classOf (a :: b :: r'') := hab.symm
      have ih2 : splitRuns ((b :: r'') ++ t) = (b :: r'') :: splitRuns t := by
        refine ih (by simp) ?_ t ?_
        · intro c hc
          rw [hhom c (List.mem_cons_of_mem a hc)]
          exact hcls.symm
        · rcases ht with rfl | ht2
          · exact Or.inl rfl
          · refine Or.inr (fun c hc => ?_)
            rw [hcls]
            exact ht2 c hc
      have hstep : splitRuns ((a :: b :: r'') ++ t) =
          splitRunsStep a (splitRuns ((b :: r'') ++ t)) := rfl
      rw [hstep, ih2]
      simp only [splitRunsStep]
      rw [if_pos (beq_iff_eq.mpr hab)]

theorem splitRuns_flatten : ∀ rs : List (List Char), ValidRuns rs →
    splitRuns rs.flatten = rs := by
  intro rs
  induction rs with
  | nil => intro _; rfl
  | cons r rs' ih =>
    intro hv
    obtain ⟨hhom, hchain⟩ := hv
    rw [List.flatten_cons]
    have hr := hhom r (by simp)
    rw [splitRuns_run_append r hr.1 hr.2 rs'.flatten ?_]
    · rw [ih ⟨fun q hq => hhom q (by simp [hq]), hchain.tail⟩]
    · cases rs' with
      | nil => exact Or.inl rfl
      | cons r2 rs2 =>
        refine Or.inr (fun c hc => ?_)
        have hr2 := hhom r2 (by simp)
        rw [head?_flatten_cons hr2.1] at hc
        have hcc : c ∈ r2 := by
          cases r2 with
          | nil => simp at hc
          | cons x r2' => simp at hc; simp [hc]
        rw [hr2.2 c hcc]
        have hne := (List.chain'_cons.mp hchain).1
        exact fun hh => hne hh.symm

/-- A well-formed abbreviation rule: nonempty word-character pattern and
replacement. -/
def RuleOk (p : String × String) : Prop :=
  p.1.data ≠ [] ∧ (∀ c ∈ p.1.data, isWordChar c = true) ∧
  p.2.data ≠ [] ∧ (∀ c ∈ p.2.data, isWordChar c = true)

instance : DecidablePred RuleOk := fun p => by
  unfold RuleOk
  infer_instance

theorem addrRules_ok : ∀ p ∈ addrRules, RuleOk p := by decide

theorem classOf_of_word {w : List Char} (hne : w ≠ []) (hw : ∀ c ∈ w, isWordChar c = true) :
    classOf w = true := by
  cases w with
  | nil => exact absurd rfl hne
  | cons a w' => exact hw a (by simp)

theorem subRun_classOf {w r : List Char} (hw : w ≠ [] ∧ ∀ c ∈ w, isWordChar c = true)
    (hr : r ≠ [] ∧ ∀ c ∈ r, isWordChar c = true) (run : List Char) :
    classOf (subRun w r run) = classOf run := by
  unfold subRun
  split_ifs with he
  · subst he
    rw [classOf_of_word hw.1 hw.2, classOf_of_word hr.1 hr.2]
  · rfl

theorem subRun_hom {w r : List Char} (_hw : w ≠ [] ∧ ∀ c ∈ w, isWordChar c = true)
    (hr : r ≠ [] ∧ ∀ c ∈ r, isWordChar c = true) {run : List Char} (hrun : HomRun run) :
    HomRun (subRun w r run) := by
  unfold subRun
  split_ifs with he
  · refine ⟨hr.1, ?_⟩
    intro c hc
    rw [classOf_of_word hr.1 hr.2]
    exact hr.2 c hc
  · exact hrun

theorem validRuns_map_subRun {w r : List Char} (hw : w ≠ [] ∧ ∀ c ∈ w, isWordChar c = true)
    (hr : r ≠ [] ∧ ∀ c ∈ r, isWordChar c = true) {rs : List (List Char)} (hv : ValidRuns rs) :
    ValidRuns (rs.map (subRun w r)) := by
  obtain ⟨hhom, hchain⟩ := hv
  constructor
  · intro q hq
    obtain ⟨q0, hq0, rfl⟩ := List.mem_map.mp hq
    exact subRun_hom hw hr (hhom q0 hq0)
  · rw [List.chain'_map]
    refine hchain.imp ?_
    intro a b hab
    rw [subRun_classOf hw hr, subRun_classOf hw hr]
    exact hab

/-- Action of the whole rule chain on a single run. -/
def runG (rules : List (String × String)) (run : List Char) : List Char :=
  rules.foldl (fun run p => subRun p.1.data p.2.data run) run

theorem ruleOk_parts {p : String × String} (h : RuleOk p) :
    (p.1.data ≠ [] ∧ ∀ c ∈ p.1.data, isWordChar c = true) ∧
    (p.2.data ≠ [] ∧ ∀ c ∈ p.2.data, isWordChar c = true) :=
  ⟨⟨h.1, h.2.1⟩, ⟨h.2.2.1, h.2.2.2⟩⟩

/-- The sequential whole-word replacements act runwise: the composite is the
per-run fold `runG` applied to the run decomposition. -/
theorem applyWordRules_eq : ∀ rules : List (String × String), (∀ p ∈ rules, RuleOk p) →
    ∀ l : List Char, applyWordRules rules l = ((splitRuns l).map (runG rules)).flatten := by
  intro rules
  induction rules with
  | nil =>
    intro _ l
    show l = ((splitRuns l).map (runG [])).flatten
    have : (splitRuns l).map (runG []) = splitRuns l := by
      apply List.map_id''
      intro run
      rfl
    rw [this, flatten_splitRuns]
  | cons p ps ih =>
    intro hok l
    have hp := ruleOk_parts (hok p (by simp))
    show applyWordRules ps (replaceWholeWord p.1 p.2 l) = _
    rw [ih (fun q hq => hok q (by simp [hq])) _]
    have hruns : splitRuns (replaceWholeWord p.1 p.2 l) =
        (splitRuns l).map (subRun p.1.data p.2.data) := by
      unfold replaceWholeWord
      exact splitRuns_flatten _ (validRuns_map_subRun hp.1 hp.2 (valid_splitRuns l))
    rw [hruns, List.map_map]
    rfl

theorem runG_fix {rules : List (String × String)} :
    ∀ x : List Char, (∀ p ∈ rules, x ≠ p.1.data) → runG rules x = x := by
  induction rules with
  | nil => intro x _; rfl
  | cons p ps ih =>
    intro x hx
    show runG ps (subRun p.1.data p.2.data x) = x
    rw [show subRun p.1.data p.2.data x = x from if_neg (hx p (by simp))]
    exact ih x (fun q hq => hx q (by simp [hq]))

theorem runG_cases : ∀ (rules : List (String × String)) (x : List Char),
    runG rules x = x ∨ ∃ p ∈ rules, runG rules x = p.2.data := by
  intro rules
  induction rules with
  | nil => intro x; exact Or.inl rfl
  | cons p ps ih =>
    intro x
    have hstep : runG (p :: ps) x = runG ps (subRun p.1.data p.2.data x) := rfl
    by_cases he : x = p.1.data
    · have hsub : subRun p.1.data p.2.data x = p.2.data := if_pos he
      rw [hstep, hsub]
      rcases ih p.2.data with h | ⟨q, hq, h⟩
      · exact Or.inr ⟨p, by simp, h⟩
      · exact Or.inr ⟨q, by simp [hq], h⟩
    · have hsub : subRun p.1.data p.2.data x = x := if_neg he
      rw [hstep, hsub]
      rcases ih x with h | ⟨q, hq, h⟩
      · exact Or.inl h
      · exact Or.inr ⟨q, by simp [hq], h⟩

theorem addr_out_not_src : ∀ p ∈ addrRules, ∀ q ∈ addrRules, p.2.data ≠ q.1.data := by decide

theorem runG_addr_idem (x : List Char) :
    runG addrRules (runG addrRules x) = runG addrRules x := by
  rcases runG_cases addrRules x with h | ⟨p, hp, h⟩
  · rw [h, h]
  · rw [h]
    exact runG_fix p.2.data (fun q hq => addr_out_not_src p hp q hq)

/-- The image of a valid run decomposition under the rule chain is valid. -/
theorem validRuns_map_runG : ∀ rules : List (String × String), (∀ p ∈ rules, RuleOk p) →
    ∀ rs : List (List Char), ValidRuns rs → ValidRuns (rs.map (runG rules)) := by
  intro rules
  induction rules with
  | nil =>
    intro _ rs hv
    have hid : rs.map (runG []) = rs := by
      apply List.map_id''
      intro run
      rfl
    rw [hid]
    exact hv
  | cons p ps ih =>
    intro hok rs hv
    have hp := ruleOk_parts (hok p (by simp))
    have hstep : rs.map (runG (p :: ps)) =
        (rs.map (subRun p.1.data p.2.data)).map (runG ps) := by
      rw [List.map_map]
      rfl
    rw [hstep]
    exact ih (fun q hq => hok q (by simp [hq])) _ (validRuns_map_subRun hp.1 hp.2 hv)

/-- Applying the rule chain twice is the same as applying it once. -/
theorem applyWordRules_addr_idem (l : List Char) :
    applyWordRules addrRules (applyWordRules addrRules l) = applyWordRules addrRules l := by
  have hvr : ValidRuns ((splitRuns l).map (runG addrRules)) :=
    validRuns_map_runG addrRules addrRules_ok _ (valid_splitRuns l)
  rw [applyWordRules_eq addrRules addrRules_ok l]
  rw [applyWordRules_eq addrRules addrRules_ok ((List.map (runG addrRules) (splitRuns l)).flatten)]
  rw [splitRuns_flatten _ hvr]
  have hmap : ∀ X : List (List Char), (∀ run ∈ X, runG addrRules run = run) →
      List.map (runG addrRules) X = X := by
    intro X
    induction X with
    | nil => intro _; rfl
    | cons a xs ih =>
      intro h
      rw [List.map_cons, h a (by simp), ih (fun b hb => h b (by simp [hb]))]
  rw [hmap _ ?_]
  intro run hrun
  obtain ⟨run0, _, rfl⟩ := List.mem_map.mp hrun
  exact runG_addr_idem run0

theorem mem_applyWordRules {l : List Char} {c : Char}
    (h : c ∈ applyWordRules addrRules l) : c ∈ l ∨ ∃ p ∈ addrRules, c ∈ p.2.data := by
  rw [applyWordRules_eq addrRules addrRules_ok] at h
  obtain ⟨run', hrun', hc⟩ := List.mem_flatten.mp h
  obtain ⟨run0, hrun0, rfl⟩ := List.mem_map.mp hrun'
  rcases runG_cases addrRules run0 with heq | ⟨p, hp, heq⟩
  · rw [heq] at hc
    refine Or.inl ?_
    rw [← flatten_splitRuns l]
    exact List.mem_flatten.mpr ⟨run0, hrun0, hc⟩
  · rw [heq] at hc
    exact Or.inr ⟨p, hp, hc⟩

theorem not_word_of_ws {c : Char} (h : isJsWs c = true) : isWordChar c = false := by
  unfold isJsWs at h
  simp only [Bool.or_eq_true, beq_iff_eq] at h
  rcases h with ((((h | h) | h) | h) | h) | h <;> subst h <;> decide

theorem head_collapseAux_true_not_ws :
    ∀ (l : List Char) (c : Char), (collapseAux true l).head? = some c → isJsWs c = false := by
  intro l
  induction l with
  | nil => intro c hc; exact Option.noConfusion hc
  | cons x xs ih =>
    intro c hc
    rw [collapseAux] at hc
    by_cases hx : isJsWs x
    · rw [if_pos hx, if_pos rfl] at hc
      exact ih c hc
    · rw [if_neg hx] at hc
      obtain rfl := Option.some.inj hc
      simpa using hx

theorem chain'_collapseAux : ∀ (l : List Char) (b : Bool),
    (collapseAux b l).Chain' (fun a c => ¬(isJsWs a = true ∧ isJsWs c = true)) := by
  intro l
  induction l with
  | nil => intro b; simp [collapseAux]
  | cons x xs ih =>
    intro b
    rw [collapseAux]
    by_cases hx : isJsWs x
    · rw [if_pos hx]
      by_cases hb : b
      · rw [if_pos hb]
        exact ih true
      · rw [if_neg hb]
        refine List.chain'_cons'.mpr ⟨?_, ih true⟩
        intro y hy
        have := head_collapseAux_true_not_ws xs y hy
        simp [this]
    · rw [if_neg hx]
      refine List.chain'_cons'.mpr ⟨?_, ih false⟩
      intro y _
      simp [hx]

theorem runG_hom : ∀ rules : List (String × String), (∀ p ∈ rules, RuleOk p) →
    ∀ run : List Char, HomRun run →
      HomRun (runG rules run) ∧ classOf (runG rules run) = classOf run := by
  intro rules
  induction rules with
  | nil => intro _ run hrun; exact ⟨hrun, rfl⟩
  | cons p ps ih =>
    intro hok run hrun
    have hp := ruleOk_parts (hok p (by simp))
    have hstep : runG (p :: ps) run = runG ps (subRun p.1.data p.2.data run) := rfl
    rw [hstep]
    have h1 := subRun_hom hp.1 hp.2 hrun
    have h2 := subRun_classOf hp.1 hp.2 run
    obtain ⟨ha, hb⟩ := ih (fun q hq => hok q (by simp [hq])) _ h1
    exact ⟨ha, hb.trans h2⟩

theorem nonword_run_fix {run : List Char} (hcls : classOf run = false) :
    runG addrRules run = run := by
  apply runG_fix
  intro p hp heq
  have := classOf_of_word (ruleOk_parts (addrRules_ok p hp)).1.1 (ruleOk_parts (addrRules_ok p hp)).1.2
  rw [← heq] at this
  rw [this] at hcls
  exact Bool.noConfusion hcls

theorem chain'_of_word {q : List Char} (hq : ∀ a ∈ q, isWordChar a = true) :
    q.Chain' (fun a c => ¬(isJsWs a = true ∧ isJsWs c = true)) := by
  induction q with
  | nil => simp
  | cons x xs ih =>
    refine List.chain'_cons'.mpr ⟨?_, ih (fun a ha => hq a (by simp [ha]))⟩
    intro y _
    intro hcon
    have := not_word_of_ws hcon.1
    rw [hq x (by simp)] at this
    exact Bool.noConfusion this

theorem getLast?_mem_of_eq {l : List Char} {a : Char} (h : l.getLast? = some a) : a ∈ l := by
  induction l with
  | nil => exact Option.noConfusion h
  | cons x xs ih =>
    cases hxs : xs with
    | nil => rw [hxs] at h; obtain rfl := Option.some.inj h; simp
    | cons y ys =>
      rw [hxs] at h ih
      rw [List.getLast?_cons_cons] at h
      exact List.mem_cons_of_mem x (ih h)

theorem validRuns_tail {r : List Char} {rs : List (List Char)}
    (hv : ValidRuns (r :: rs)) : ValidRuns rs :=
  ⟨fun q hq => hv.1 q (by simp [hq]), hv.2.tail⟩

/-- Transport of the no-adjacent-whitespace chain through any per-run map that
fixes non-word runs and keeps word runs homogeneous of the same class. -/
theorem chain'_flatten_map_gen (G : List Char → List Char)
    (hfix : ∀ run : List Char, classOf run = false → G run = run)
    (hhom : ∀ run : List Char, HomRun run →
      HomRun (G run) ∧ classOf (G run) = classOf run) :
    ∀ rs : List (List Char), ValidRuns rs →
    rs.flatten.Chain' (fun a c => ¬(isJsWs a = true ∧ isJsWs c = true)) →
    ((rs.map G).flatten).Chain'
      (fun a c => ¬(isJsWs a = true ∧ isJsWs c = true)) := by
  intro rs
  induction rs with
  | nil => intro _ _; simp
  | cons r rs' ih =>
    intro hv h
    have hr : HomRun r := hv.1 r (by simp)
    have hrr := hhom r hr
    rw [List.flatten_cons] at h
    rw [List.map_cons, List.flatten_cons]
    obtain ⟨h1, h2, hseam⟩ := List.chain'_append.mp h
    refine List.chain'_append.mpr ⟨?_, ih (validRuns_tail hv) h2, ?_⟩
    · cases hcls : classOf r with
      | false =>
        rw [hfix r hcls]
        exact h1
      | true =>
        refine chain'_of_word ?_
        intro a ha
        rw [hrr.1.2 a ha, hrr.2, hcls]
    · intro x hx y hy
      rw [Option.mem_def] at hx hy
      cases hcls : classOf r with
      | true =>
        have hxmem : x ∈ G r := getLast?_mem_of_eq hx
        have hxw : isWordChar x = true := by rw [hrr.1.2 x hxmem, hrr.2, hcls]
        intro hcon
        have := not_word_of_ws hcon.1
        rw [hxw] at this
        exact Bool.noConfusion this
      | false =>
        cases rs' with
        | nil => simp at hy
        | cons r2 rs2 =>
          have hr2 : HomRun r2 := hv.1 r2 (by simp)
          have hr2' := hhom r2 hr2
          have hcls2 : classOf r2 = true := by
            have hne := (List.chain'_cons.mp hv.2).1
            cases hc2 : classOf r2 with
            | false => rw [hcls, hc2] at hne; exact absurd rfl hne
            | true => rfl
          rw [List.map_cons, head?_flatten_cons hr2'.1.1] at hy
          have hymem : y ∈ G r2 := by
            cases hq : G r2 with
            | nil => rw [hq] at hy; exact Option.noConfusion hy
            | cons z zs => rw [hq] at hy; obtain rfl := Option.some.inj hy; simp
          have hyw : isWordChar y = true := by rw [hr2'.1.2 y hymem, hr2'.2, hcls2]
          intro hcon
          have := not_word_of_ws hcon.2
          rw [hyw] at this
          exact Bool.noConfusion this

/-- Transport of the no-adjacent-whitespace chain through the runwise rule
application: word runs stay whitespace-free, non-word runs are untouched. -/
theorem chain'_flatten_map_runG (rs : List (List Char)) (hv : ValidRuns rs)
    (h : rs.flatten.Chain' (fun a c => ¬(isJsWs a = true ∧ isJsWs c = true))) :
    ((rs.map (runG addrRules)).flatten).Chain'
      (fun a c => ¬(isJsWs a = true ∧ isJsWs c = true)) :=
  chain'_flatten_map_gen (runG addrRules)
    (fun _ hc => nonword_run_fix hc)
    (fun run hrun => runG_hom addrRules addrRules_ok run hrun) rs hv h

theorem data_mk (l : List Char) : (String.mk l).data = l := rfl

theorem normalizeAddress_mk (s : String) :
    normalizeAddress s =
      ⟨applyWordRules addrRules (collapseWs (stripPunct (trimL (lowerL s.data))))⟩ := rfl

theorem normalizeAddress_data (s : String) :
    (normalizeAddress s).data =
      applyWordRules addrRules (collapseWs (stripPunct (trimL (lowerL s.data)))) := by
  rw [normalizeAddress_mk]

theorem collapseAux_fix : ∀ (l : List Char) (b : Bool),
    (∀ c ∈ l, isJsWs c = true → c = ' ') →
    l.Chain' (fun a c => ¬(isJsWs a = true ∧ isJsWs c = true)) →
    (b = true → ∀ c, l.head? = some c → isJsWs c = false) →
    collapseAux b l = l := by
  intro l
  induction l with
  | nil => intro b _ _ _; cases b <;> rfl
  | cons x xs ih =>
    intro b hsp hch hb
    obtain ⟨hhead, htail⟩ := List.chain'_cons'.mp hch
    by_cases hx : isJsWs x
    · cases b with
      | true =>
        have := hb rfl x rfl
        rw [hx] at this
        exact Bool.noConfusion this
      | false =>
        have hstep : collapseAux false (x :: xs) = ' ' :: collapseAux true xs := by
          rw [collapseAux, if_pos hx]
          simp
        rw [hstep]
        have hxsp : x = ' ' := hsp x (by simp) hx
        have hrest : collapseAux true xs = xs := by
          refine ih true (fun c hc => hsp c (by simp [hc])) htail ?_
          intro _ c hc
          have := hhead c hc
          cases hc2 : isJsWs c with
          | false => rfl
          | true => exact absurd ⟨hx, hc2⟩ this
        rw [hrest, hxsp]
    · have hrest : collapseAux false xs = xs :=
        ih false (fun c hc => hsp c (by simp [hc])) htail (fun h => Bool.noConfusion h)
      cases b with
      | true =>
        rw [collapseAux, if_neg hx, hrest]
      | false =>
        rw [collapseAux, if_neg hx, hrest]

theorem collapseWs_fix (l : List Char)
    (hsp : ∀ c ∈ l, isJsWs c = true → c = ' ')
    (hch : l.Chain' (fun a c => ¬(isJsWs a = true ∧ isJsWs c = true))) :
    collapseWs l = l :=
  collapseAux_fix l false hsp hch (fun h => Bool.noConfusion h)

theorem addr_out_chars : ∀ p ∈ addrRules, ∀ c ∈ p.2.data,
    toLowerCh c = c ∧ (c == '.' || c == ',' || c == '#') = false ∧ isJsWs c = false := by
  decide

theorem normalize_mem_chars (s : String) :
    ∀ c ∈ (normalizeAddress s).data,
      toLowerCh c = c ∧ (c == '.' || c == ',' || c == '#') = false ∧
        (isJsWs c = true → c = ' ') := by
  intro c hc
  rw [normalizeAddress_data] at hc
  rcases mem_applyWordRules hc with hu | ⟨p, hp, hcp⟩
  · rcases mem_collapseAux false _ c hu with rfl | ⟨hmem, hws⟩
    · exact ⟨by decide, by decide, fun _ => rfl⟩
    · obtain ⟨hmem2, hpred⟩ := List.mem_filter.mp hmem
      have hlow : toLowerCh c = c := by
        have hmem3 := mem_trimL hmem2
        obtain ⟨d, _, rfl⟩ := List.mem_map.mp hmem3
        exact toLowerCh_idem d
      refine ⟨hlow, ?_, ?_⟩
      · have hpr : (!(c == '.' || c == ',' || c == '#')) = true := hpred
        cases hq : (c == '.' || c == ',' || c == '#') with
        | false => rfl
        | true => rw [hq] at hpr; exact Bool.noConfusion hpr
      · intro hcon
        rw [hcon] at hws
        exact Bool.noConfusion hws
  · obtain ⟨h1, h2, h3⟩ := addr_out_chars p hp c hcp
    refine ⟨h1, h2, ?_⟩
    intro hcon
    rw [hcon] at h3
    exact Bool.noConfusion h3

theorem normalize_chain (s : String) :
    (normalizeAddress s).data.Chain'
      (fun a c => ¬(isJsWs a = true ∧ isJsWs c = true)) := by
  rw [normalizeAddress_data]
  rw [applyWordRules_eq addrRules addrRules_ok]
  refine chain'_flatten_map_runG _ (valid_splitRuns _) ?_
  rw [flatten_splitRuns]
  exact chain'_collapseAux _ false

/-- C6 (counterexample): `normalizeAddress` is not idempotent. On `". a"` the
first pass strips the period after trimming, leaving a leading space that only
the (already passed) trim stage could remove; the second pass trims it away, so
`normalize(normalize(". a")) = "a" ≠ " a" = normalize(". a")`. -/
theorem C6_normalize_not_idempotent :
    normalizeAddress (normalizeAddress ". a") ≠ normalizeAddress ". a" := by
  decide

section

attribute [local irreducible] normalizeAddress

/-- C6 (amended): `normalizeAddress` is idempotent on every input whose
normalized form is already trimmed — equivalently, whenever stripping `.,#`
does not expose new leading or trailing whitespace. On such outputs every
stage of a second pass is a no-op: the characters are already lowercased and
free of `.,#`, whitespace is collapsed to single interior spaces, and the
abbreviation table is closed under itself (no rule output is another rule's
source), so a second pass returns the same string. -/
theorem C6_normalize_idempotent_on_trimmed (x : String)
    (h : trimL (normalizeAddress x).data = (normalizeAddress x).data) :
    normalizeAddress (normalizeAddress x) = normalizeAddress x := by
  have hm := normalize_mem_chars x
  have hlow : lowerL (normalizeAddress x).data = (normalizeAddress x).data := by
    unfold lowerL
    exact map_id_of_fixed _ (fun c hc => (hm c hc).1)
  have hstrip : stripPunct (normalizeAddress x).data = (normalizeAddress x).data := by
    refine List.filter_eq_self.mpr ?_
    intro c hc
    have hpr := (hm c hc).2.1
    show (!(c == '.' || c == ',' || c == '#')) = true
    rw [hpr]
    rfl
  have hcoll : collapseWs (normalizeAddress x).data = (normalizeAddress x).data :=
    collapseWs_fix (normalizeAddress x).data
      (fun c hc => (hm c hc).2.2) (normalize_chain x)
  conv_lhs => rw [normalizeAddress_mk (normalizeAddress x), hlow, h, hstrip, hcoll,
    normalizeAddress_data x, applyWordRules_addr_idem]
  exact (normalizeAddress_mk x).symm

end

theorem C6_normalize_idempotent_on_trimmed_witness :
    trimL (normalizeAddress "123 North Main Street").data =
        (normalizeAddress "123 North Main Street").data ∧
      normalizeAddress (normalizeAddress "123 North Main Street") =
        normalizeAddress "123 North Main Street" :=
  ⟨by decide, C6_normalize_idempotent_on_trimmed "123 North Main Street" (by decide)⟩
